import Mathlib

set_option maxRecDepth 8000
set_option maxHeartbeats 1000000

/-! # Shallow embedding of the retrieval metrics core of retrieval_ensemble.py

Integer-valued quantities (ranks, image identifiers) are modelled by `ℤ`,
real-valued quantities by `ℚ`, NumPy arrays and Python lists by Lean lists,
Python dictionaries by association lists, and text lines by lists of
characters.  Functions that can raise a Python exception are modelled in the
`Except String` monad, with the error string recording the exception kind. -/

/-- One iteration body of the `for i, rank in enumerate(positive_ranks)` loop
of `ComputeAveragePrecision` (retrieval_ensemble.py lines 179-186): the
trapezoid contribution of the `i`-th expected positive, whose zero-indexed
retrieval rank is `rank`. -/
def apTerm (recall_step : ℚ) (i : ℕ) (rank : ℤ) : ℚ :=
  let left_precision : ℚ := if rank = 0 then 1 else (i : ℚ) / (rank : ℚ)
  let right_precision : ℚ := ((i : ℚ) + 1) / ((rank : ℚ) + 1)
  (left_precision + right_precision) * recall_step / 2

/-- The accumulation loop of `ComputeAveragePrecision`, with enumeration
counter `i` and accumulator `acc`. -/
def apLoop (recall_step : ℚ) : ℕ → ℚ → List ℤ → ℚ
  | _, acc, [] => acc
  | i, acc, rank :: rest => apLoop recall_step (i + 1) (acc + apTerm recall_step i rank) rest

/-- `ComputeAveragePrecision` (retrieval_ensemble.py lines 151-188): average
precision of a sorted zero-indexed rank sequence, by the Revisited
Oxford/Paris trapezoidal convention.  Returns `0` for the empty sequence. -/
def ComputeAveragePrecision (positive_ranks : List ℤ) : ℚ :=
  if positive_ranks.length = 0 then 0
  else apLoop (1 / (positive_ranks.length : ℚ)) 0 0 positive_ranks

theorem apLoop_eq_sum (recall_step : ℚ) (l : List ℤ) :
    ∀ (i : ℕ) (acc : ℚ),
      apLoop recall_step i acc l =
        acc + ((List.range l.length).map
          (fun j => apTerm recall_step (i + j) (l.getD j 0))).sum := by
  induction l with
  | nil => intro i acc; simp [apLoop]
  | cons r rest ih =>
    intro i acc
    rw [apLoop, ih]
    rw [List.length_cons, List.range_succ_eq_map, List.map_cons, List.sum_cons, List.map_map]
    simp only [Function.comp_def, Nat.succ_eq_add_one, List.getD_cons_succ,
      List.getD_cons_zero, Nat.add_zero]
    rw [add_assoc]
    congr 1
    have h1 : ∀ j : ℕ, i + 1 + j = i + (j + 1) := fun j => by omega
    simp only [h1]

/-- C1: for every rank sequence, `ComputeAveragePrecision` returns `0` when
the sequence is empty (the sum below is then empty) and otherwise returns
exactly `Σ_{i<len} ((1 if rᵢ = 0 else i/rᵢ) + (i+1)/(rᵢ+1)) / 2 · (1/len)`,
the trapezoidal convention. -/
theorem computeAveragePrecision_trapezoidal (pr : List ℤ) :
    ComputeAveragePrecision pr =
      ((List.range pr.length).map (fun i =>
        ((if pr.getD i 0 = 0 then (1 : ℚ) else (i : ℚ) / ((pr.getD i 0 : ℤ) : ℚ)) +
            ((i : ℚ) + 1) / (((pr.getD i 0 : ℤ) : ℚ) + 1)) / 2
          * (1 / (pr.length : ℚ)))).sum := by
  unfold ComputeAveragePrecision
  by_cases h : pr.length = 0
  · simp [h]
  · rw [if_neg h, apLoop_eq_sum, zero_add]
    congr 1
    apply List.map_congr_left
    intro j _
    unfold apTerm
    simp only [zero_add]
    split <;> ring

theorem apTerm_nonneg (recall_step : ℚ) (i : ℕ) (rank : ℤ)
    (hs : 0 ≤ recall_step) (hir : (i : ℤ) ≤ rank) :
    0 ≤ apTerm recall_step i rank := by
  unfold apTerm
  rcases eq_or_ne rank 0 with h0 | h0
  · subst h0
    simp only [if_pos rfl]
    positivity
  · rw [if_neg h0]
    have hrpos : (0 : ℚ) < (rank : ℚ) := by
      have : (0 : ℤ) < rank := by omega
      exact_mod_cast this
    have hL : (0 : ℚ) ≤ (i : ℚ) / (rank : ℚ) := by positivity
    have hR : (0 : ℚ) ≤ ((i : ℚ) + 1) / ((rank : ℚ) + 1) := by positivity
    have h2 : (0 : ℚ) ≤ ((i : ℚ) / (rank : ℚ) + ((i : ℚ) + 1) / ((rank : ℚ) + 1)) * recall_step :=
      mul_nonneg (by linarith) hs
    linarith

theorem apTerm_le_step (recall_step : ℚ) (i : ℕ) (rank : ℤ)
    (hs : 0 ≤ recall_step) (hir : (i : ℤ) ≤ rank) :
    apTerm recall_step i rank ≤ recall_step := by
  unfold apTerm
  have hiq : (i : ℚ) ≤ (rank : ℚ) := by exact_mod_cast hir
  rcases eq_or_ne rank 0 with h0 | h0
  · subst h0
    have hi0 : i = 0 := by omega
    subst hi0
    simp only [if_pos rfl]
    norm_num
  · rw [if_neg h0]
    have hrpos : (0 : ℚ) < (rank : ℚ) := by
      have : (0 : ℤ) < rank := by omega
      exact_mod_cast this
    have hL : (i : ℚ) / (rank : ℚ) ≤ 1 := by
      rw [div_le_one hrpos]; exact hiq
    have hR : ((i : ℚ) + 1) / ((rank : ℚ) + 1) ≤ 1 := by
      rw [div_le_one (by linarith)]; linarith
    have hLR : (i : ℚ) / (rank : ℚ) + ((i : ℚ) + 1) / ((rank : ℚ) + 1) ≤ 2 := by linarith
    calc ((i : ℚ) / (rank : ℚ) + ((i : ℚ) + 1) / ((rank : ℚ) + 1)) * recall_step / 2
        ≤ 2 * recall_step / 2 := by
          apply div_le_div_of_nonneg_right ?_ (by norm_num)
          exact mul_le_mul_of_nonneg_right hLR hs
      _ = recall_step := by ring

theorem apLoop_bounds (recall_step : ℚ) (hs : 0 ≤ recall_step) (l : List ℤ) :
    ∀ (i : ℕ) (acc : ℚ),
      (∀ j (hj : j < l.length), ((i + j : ℕ) : ℤ) ≤ l.get ⟨j, hj⟩) →
      acc ≤ apLoop recall_step i acc l ∧
        apLoop recall_step i acc l ≤ acc + (l.length : ℚ) * recall_step := by
  induction l with
  | nil => intro i acc _; simp [apLoop]
  | cons r rest ih =>
    intro i acc hidx
    have h0 : (i : ℤ) ≤ r := by
      have := hidx 0 (by simp)
      simpa using this
    have hterm0 := apTerm_nonneg recall_step i r hs h0
    have hterm1 := apTerm_le_step recall_step i r hs h0
    have hrec := ih (i + 1) (acc + apTerm recall_step i r) ?_
    · rw [apLoop]
      constructor
      · linarith [hrec.1]
      · have := hrec.2
        rw [List.length_cons]
        push_cast
        push_cast at this
        linarith
    · intro j hj
      have := hidx (j + 1) (by simpa using Nat.succ_lt_succ hj)
      have hg : (r :: rest).get ⟨j + 1, by simpa using Nat.succ_lt_succ hj⟩ =
          rest.get ⟨j, hj⟩ := rfl
      rw [hg] at this
      omega

/-- In a strictly sorted list of integers whose elements are nonnegative, the
element at position `j` is at least `j`. -/
theorem sorted_nonneg_le_get (pr : List ℤ) (hsort : List.Sorted (· < ·) pr)
    (hnn : ∀ r ∈ pr, 0 ≤ r) :
    ∀ j (hj : j < pr.length), (j : ℤ) ≤ pr.get ⟨j, hj⟩ := by
  intro j
  induction j with
  | zero =>
    intro hj
    simpa using hnn _ (pr.get_mem 0 hj)
  | succ k ihk =>
    intro hj
    have hk : k < pr.length := by omega
    have h1 := ihk hk
    have h2 : pr.get ⟨k, hk⟩ < pr.get ⟨k + 1, hj⟩ := by
      have := List.pairwise_iff_get.mp hsort ⟨k, hk⟩ ⟨k + 1, hj⟩
      exact this (by simp)
    omega

/-- C7: for every sorted, strictly increasing, zero-indexed nonnegative rank
sequence (including the empty one), `ComputeAveragePrecision` returns a value
in the closed interval `[0, 1]`. -/
theorem computeAveragePrecision_mem_unit (pr : List ℤ)
    (hsort : List.Sorted (· < ·) pr) (hnn : ∀ r ∈ pr, 0 ≤ r) :
    0 ≤ ComputeAveragePrecision pr ∧ ComputeAveragePrecision pr ≤ 1 := by
  unfold ComputeAveragePrecision
  by_cases h : pr.length = 0
  · simp [h]
  · rw [if_neg h]
    have hlen : (0 : ℚ) < (pr.length : ℚ) := by
      have : 0 < pr.length := Nat.pos_of_ne_zero h
      exact_mod_cast this
    have hs : (0 : ℚ) ≤ 1 / (pr.length : ℚ) := by positivity
    have hb := apLoop_bounds (1 / (pr.length : ℚ)) hs pr 0 0 ?_
    · constructor
      · linarith [hb.1]
      · have := hb.2
        have hone : (pr.length : ℚ) * (1 / (pr.length : ℚ)) = 1 := by
          field_simp
        linarith
    · intro j hj
      simpa using sorted_nonneg_le_get pr hsort hnn j hj

theorem computeAveragePrecision_mem_unit_witness :
    0 ≤ ComputeAveragePrecision [0, 2] ∧ ComputeAveragePrecision [0, 2] ≤ 1 :=
  computeAveragePrecision_mem_unit [0, 2] (by decide) (by decide)

/-- The `while (j < len(junk_ranks) and positive_index > junk_ranks[j])` loop
of `AdjustPositiveRanks` (retrieval_ensemble.py lines 143-144) advances `j`
past the junk entries strictly below `positive_index`; starting from position
`j` the number of steps taken equals the length of the strictly-smaller
leading run of `junk_ranks.drop j`. -/
def skipCount (positive_index : ℤ) : List ℤ → ℕ
  | [] => 0
  | x :: rest => if x < positive_index then skipCount positive_index rest + 1 else 0

/-- Final value of the pointer `j` after the while loop of
`AdjustPositiveRanks`, started at `j`. -/
def junkAdvance (positive_index : ℤ) (junk_ranks : List ℤ) (j : ℕ) : ℕ :=
  j + skipCount positive_index (junk_ranks.drop j)

/-- One iteration of the `for i, positive_index in enumerate(positive_ranks)`
loop of `AdjustPositiveRanks` (lines 142-146), acting on the state (current
contents of the `positive_ranks` buffer, junk pointer `j`); the write
`adjusted_positive_ranks[i] -= j` mutates the buffer in place. -/
def adjustStep (junk_ranks : List ℤ) (st : List ℤ × ℕ) (i : ℕ) : List ℤ × ℕ :=
  let positive_index := st.1.getD i 0
  let j2 := junkAdvance positive_index junk_ranks st.2
  (st.1.set i (positive_index - (j2 : ℤ)), j2)

/-- `AdjustPositiveRanks` (lines 127-148) with the buffer aliasing of the
source made explicit: returns the pair (returned array, final contents of the
`positive_ranks` buffer).  In the source, `adjusted_positive_ranks` is the
very same object as `positive_ranks`, so both components coincide. -/
def AdjustPositiveRanksRun (positive_ranks junk_ranks : List ℤ) : List ℤ × List ℤ :=
  if junk_ranks.length = 0 then (positive_ranks, positive_ranks)
  else
    let final := ((List.range positive_ranks.length).foldl (adjustStep junk_ranks)
      (positive_ranks, 0)).1
    (final, final)

/-- The value returned by `AdjustPositiveRanks`. -/
def AdjustPositiveRanks (positive_ranks junk_ranks : List ℤ) : List ℤ :=
  (AdjustPositiveRanksRun positive_ranks junk_ranks).1

/-- Structural-recursion rendering of the adjustment loop, used to reason
about the index-based fold. -/
def adjustLoop (junk_ranks : List ℤ) : ℕ → List ℤ → List ℤ
  | _, [] => []
  | j, p :: rest =>
    (p - (junkAdvance p junk_ranks j : ℤ)) :: adjustLoop junk_ranks (junkAdvance p junk_ranks j) rest

theorem getD_append_length (done : List ℤ) (p : ℤ) (rest : List ℤ) :
    (done ++ p :: rest).getD done.length 0 = p := by
  induction done with
  | nil => rfl
  | cons a t ih => simp only [List.cons_append, List.length_cons, List.getD_cons_succ, ih]

theorem set_append_length (done : List ℤ) (p v : ℤ) (rest : List ℤ) :
    (done ++ p :: rest).set done.length v = done ++ v :: rest := by
  induction done with
  | nil => rfl
  | cons a t ih => simpa using ih

theorem adjustFold_eq (junk_ranks : List ℤ) :
    ∀ (rest done : List ℤ) (j : ℕ),
      ((List.range' done.length rest.length).foldl (adjustStep junk_ranks) (done ++ rest, j)).1
        = done ++ adjustLoop junk_ranks j rest := by
  intro rest
  induction rest with
  | nil => intro done j; simp [adjustLoop]
  | cons p rest ih =>
    intro done j
    rw [List.length_cons, List.range'_succ, List.foldl_cons]
    have hstep : adjustStep junk_ranks (done ++ p :: rest, j) done.length
        = (done ++ (p - (junkAdvance p junk_ranks j : ℤ)) :: rest, junkAdvance p junk_ranks j) := by
      simp only [adjustStep, getD_append_length, set_append_length]
    rw [hstep]
    have h2 := ih (done ++ [p - (junkAdvance p junk_ranks j : ℤ)]) (junkAdvance p junk_ranks j)
    rw [List.length_append, List.length_singleton, List.append_assoc, List.singleton_append] at h2
    rw [h2, List.append_assoc, List.singleton_append, adjustLoop]

theorem adjustRun_eq_adjustLoop (pr junk : List ℤ) (h : ¬junk.length = 0) :
    AdjustPositiveRanksRun pr junk = (adjustLoop junk 0 pr, adjustLoop junk 0 pr) := by
  unfold AdjustPositiveRanksRun
  rw [if_neg h]
  have hfold := adjustFold_eq junk pr [] 0
  rw [List.nil_append, List.nil_append, List.length_nil] at hfold
  rw [List.range_eq_range', hfold]

/-- Number of junk ranks strictly below `p`. -/
def countBelow (junk_ranks : List ℤ) (p : ℤ) : ℕ :=
  junk_ranks.countP (fun x => decide (x < p))

theorem skipCount_eq_countBelow (p : ℤ) :
    ∀ (junk : List ℤ), List.Sorted (· ≤ ·) junk →
      skipCount p junk = countBelow junk p := by
  intro junk
  induction junk with
  | nil => intro _; rfl
  | cons x rest ih =>
    intro hs
    rw [List.sorted_cons] at hs
    unfold skipCount countBelow
    rw [List.countP_cons]
    by_cases hx : x < p
    · rw [if_pos hx]
      unfold countBelow at ih
      rw [ih hs.2]
      simp [hx]
    · rw [if_neg hx]
      have hall : rest.countP (fun y => decide (y < p)) = 0 := by
        rw [List.countP_eq_zero]
        intro a ha
        have := hs.1 a ha
        simp only [decide_eq_true_eq]
        omega
      simp [hall, hx]

theorem junkAdvance_eq_countBelow (p : ℤ) :
    ∀ (j : ℕ) (junk : List ℤ), List.Sorted (· ≤ ·) junk →
      j ≤ countBelow junk p → junkAdvance p junk j = countBelow junk p := by
  intro j
  induction j with
  | zero =>
    intro junk hs _
    unfold junkAdvance
    rw [List.drop_zero, Nat.zero_add]
    exact skipCount_eq_countBelow p junk hs
  | succ k ihk =>
    intro junk hs hle
    match junk with
    | [] =>
      exfalso
      unfold countBelow at hle
      simp [List.countP_nil] at hle
    | x :: rest =>
      rw [List.sorted_cons] at hs
      have hx : x < p := by
        by_contra hx
        have hzero : countBelow (x :: rest) p = 0 := by
          unfold countBelow
          rw [List.countP_eq_zero]
          intro a ha
          simp only [List.mem_cons] at ha
          simp only [decide_eq_true_eq]
          rcases ha with rfl | ha
          · omega
          · have := hs.1 a ha
            omega
        omega
      have hcb : countBelow (x :: rest) p = countBelow rest p + 1 := by
        unfold countBelow
        rw [List.countP_cons]
        simp [hx]
      unfold junkAdvance
      rw [List.drop_succ_cons]
      have hrec := ihk rest hs.2 (by omega)
      unfold junkAdvance at hrec
      omega

theorem adjustLoop_eq_map (junk : List ℤ) (hsj : List.Sorted (· ≤ ·) junk) :
    ∀ (pr : List ℤ), List.Sorted (· ≤ ·) pr →
      ∀ j, (∀ p ∈ pr, j ≤ countBelow junk p) →
      adjustLoop junk j pr = pr.map (fun p => p - (countBelow junk p : ℤ)) := by
  intro pr
  induction pr with
  | nil => intro _ j _; rfl
  | cons p rest ih =>
    intro hs j hj
    rw [List.sorted_cons] at hs
    have hadv : junkAdvance p junk j = countBelow junk p :=
      junkAdvance_eq_countBelow p j junk hsj (hj p (by simp))
    rw [adjustLoop, hadv, List.map_cons]
    congr 1
    apply ih hs.2
    intro q hq
    rw [← hadv]
    rw [hadv]
    apply List.countP_mono_left
    intro x _ hx
    simp only [decide_eq_true_eq] at hx ⊢
    have := hs.1 q hq
    omega

/-- C3: for sorted strictly increasing rank sequences, `AdjustPositiveRanks`
returns the same-length sequence whose `i`-th element is
`positive_ranks[i]` minus the number of junk ranks strictly below it; with
empty `junk_ranks` it returns `positive_ranks` unchanged; and
`positive_ranks = [0, 2]`, `junk_ranks = [1]` yields `[0, 1]`. -/
theorem adjustPositiveRanks_spec (pr junk : List ℤ)
    (hpr : List.Sorted (· < ·) pr) (hjk : List.Sorted (· < ·) junk) :
    AdjustPositiveRanks pr junk
        = pr.map (fun p => p - (junk.countP (fun x => decide (x < p)) : ℤ)) ∧
    AdjustPositiveRanks pr [] = pr ∧
    AdjustPositiveRanks [0, 2] [1] = [0, 1] := by
  refine ⟨?_, rfl, by decide⟩
  by_cases h : junk.length = 0
  · have hj : junk = [] := List.length_eq_zero.mp h
    subst hj
    unfold AdjustPositiveRanks AdjustPositiveRanksRun
    simp
  · unfold AdjustPositiveRanks
    rw [adjustRun_eq_adjustLoop pr junk h]
    exact adjustLoop_eq_map junk (hjk.imp (fun hab => le_of_lt hab)) pr
      (hpr.imp (fun hab => le_of_lt hab)) 0 (fun p _ => Nat.zero_le _)

theorem adjustPositiveRanks_spec_witness :
    AdjustPositiveRanks [0, 2] [1]
        = ([0, 2] : List ℤ).map
            (fun p => p - ((([1] : List ℤ).countP (fun x => decide (x < p))) : ℤ)) ∧
    AdjustPositiveRanks [0, 2] [] = [0, 2] ∧
    AdjustPositiveRanks [0, 2] [1] = [0, 1] :=
  adjustPositiveRanks_spec [0, 2] [1] (by decide) (by decide)

/-- C8 counterexample: `AdjustPositiveRanks` does not leave its
`positive_ranks` input unchanged: with `positive_ranks = [0, 2]` and
`junk_ranks = [1]` the buffer holds `[0, 1]` after the call, not `[0, 2]`. -/
theorem adjustPositiveRanks_mutates_input :
    (AdjustPositiveRanksRun [0, 2] [1]).2 ≠ [0, 2] := by decide

/-- C8 amended: `AdjustPositiveRanks` computes the adjusted ranks in place:
after the call the `positive_ranks` buffer holds exactly the returned
sequence (the return value aliases the mutated input), and only the
empty-`junk_ranks` fast path leaves the buffer equal to the original input. -/
theorem adjustPositiveRanks_in_place (pr junk : List ℤ) :
    (AdjustPositiveRanksRun pr junk).2 = AdjustPositiveRanks pr junk ∧
    (junk = [] → (AdjustPositiveRanksRun pr junk).2 = pr) := by
  constructor
  · unfold AdjustPositiveRanks AdjustPositiveRanksRun
    by_cases h : junk.length = 0 <;> simp [h]
  · intro h
    subst h
    rfl

/-- Python `max` over a nonempty integer array
(`max(positive_ranks_one_indexed)` at line 230); returns `0` on the empty
list, which the source never queries. -/
def listMaxZ : List ℤ → ℤ
  | [] => 0
  | x :: rest => rest.foldl max x

/-- `ComputePRAtRanks` (retrieval_ensemble.py lines 191-234): precision and
recall at each desired rank, returned as the pair (precisions, recalls).
`np.sum(a <= k)` is modelled by `countP`. -/
def ComputePRAtRanks (positive_ranks desired_pr_ranks : List ℤ) : List ℚ × List ℚ :=
  if positive_ranks.length = 0 then
    (desired_pr_ranks.map (fun _ => 0), desired_pr_ranks.map (fun _ => 0))
  else
    let num_expected_positives := positive_ranks.length
    let positive_ranks_one_indexed := positive_ranks.map (fun r => r + 1)
    let recalls := desired_pr_ranks.map (fun desired_pr_rank =>
      ((positive_ranks_one_indexed.countP (fun x => decide (x ≤ desired_pr_rank)) : ℕ) : ℚ) /
        (num_expected_positives : ℚ))
    let precisions := desired_pr_ranks.map (fun desired_pr_rank =>
      let precision_rank := min (listMaxZ positive_ranks_one_indexed) desired_pr_rank
      ((positive_ranks_one_indexed.countP (fun x => decide (x ≤ precision_rank)) : ℕ) : ℚ) /
        ((precision_rank : ℤ) : ℚ))
    (precisions, recalls)

/-- C4: `ComputePRAtRanks` returns two vectors of length `len(desired_ranks)`;
all zeros when `positive_ranks` is empty; otherwise, with one-indexed
positives `p`, recall at `k` is `#{x ∈ p : x ≤ k} / len(p)` and precision at
`k` is `#{x ∈ p : x ≤ m} / m` with `m = min (max p) k`; and
`positive_ranks = [0, 7]`, `desired_ranks = [10]` yields precisions `[1/4]`
and recalls `[1]`. -/
theorem computePRAtRanks_spec (pr ks : List ℤ)
    (hpr : List.Sorted (· < ·) pr) (hks : ∀ k ∈ ks, 0 < k) :
    ((ComputePRAtRanks pr ks).1.length = ks.length ∧
      (ComputePRAtRanks pr ks).2.length = ks.length) ∧
    (pr = [] → (ComputePRAtRanks pr ks).1 = ks.map (fun _ => 0) ∧
      (ComputePRAtRanks pr ks).2 = ks.map (fun _ => 0)) ∧
    (pr ≠ [] →
      (ComputePRAtRanks pr ks).2 = ks.map (fun k =>
        ((((pr.map (fun r => r + 1)).filter (fun x => decide (x ≤ k))).length : ℕ) : ℚ)
          / (pr.length : ℚ)) ∧
      (ComputePRAtRanks pr ks).1 = ks.map (fun k =>
        ((((pr.map (fun r => r + 1)).filter
            (fun x => decide (x ≤ min (listMaxZ (pr.map (fun r => r + 1))) k))).length : ℕ) : ℚ)
          / ((min (listMaxZ (pr.map (fun r => r + 1))) k : ℤ) : ℚ))) ∧
    ComputePRAtRanks [0, 7] [10] = ([1/4], [1]) := by
  refine ⟨⟨?_, ?_⟩, ?_, ?_, by simp [ComputePRAtRanks, listMaxZ]; norm_num⟩
  · unfold ComputePRAtRanks
    by_cases h : pr.length = 0 <;> simp [h]
  · unfold ComputePRAtRanks
    by_cases h : pr.length = 0 <;> simp [h]
  · intro h
    subst h
    exact ⟨rfl, rfl⟩
  · intro h
    have hlen : ¬pr.length = 0 := by
      simpa [List.length_eq_zero] using h
    unfold ComputePRAtRanks
    rw [if_neg hlen]
    constructor
    · simp only
      congr 1
      funext k
      rw [List.countP_eq_length_filter]
    · simp only
      congr 1
      funext k
      rw [List.countP_eq_length_filter]

theorem computePRAtRanks_spec_witness :
    ComputePRAtRanks [0, 7] [10] = ([1/4], [1]) :=
  (computePRAtRanks_spec [0, 7] [10] (by decide) (by decide)).2.2.2

/-- Per-query ground-truth record as produced by `ReadDatasetFile`: the keys
`easy`, `hard`, `junk` may each be absent from the dict (modelled by
`Option`); the bounding box is irrelevant to the metrics core. -/
structure QueryGTRaw where
  easy : Option (List ℤ)
  hard : Option (List ℤ)
  junk : Option (List ℤ)
deriving DecidableEq, Inhabited

/-- Ok/junk dictionary built by `_ParseGroundTruth` (lines 74-88). -/
structure OkJunk where
  ok : List ℤ
  junk : List ℤ
deriving DecidableEq, Inhabited

/-- Python dict access `d[key]`: raises `KeyError` when the key is absent. -/
def dictGet (dv : Option (List ℤ)) (key : String) : Except String (List ℤ) :=
  match dv with
  | some v => Except.ok v
  | none => Except.error ("KeyError: " ++ key)

/-- `_ParseGroundTruth` (lines 74-88): `np.concatenate` of the ok lists and of
the junk lists. -/
def ParseGroundTruthPair (ok_list junk_list : List (List ℤ)) : OkJunk :=
  { ok := ok_list.flatten, junk := junk_list.flatten }

/-- One iteration of the query loop of `ParseEasyMediumHardGroundTruth`
(lines 113-122); the three dict accesses happen in source order
(`easy`, `junk`, `hard`). -/
def parseOneQuery (g : QueryGTRaw) : Except String (OkJunk × OkJunk × OkJunk) := do
  let easy ← dictGet g.easy "easy"
  let junk ← dictGet g.junk "junk"
  let hard ← dictGet g.hard "hard"
  pure (ParseGroundTruthPair [easy] [junk, hard],
        ParseGroundTruthPair [easy, hard] [junk],
        ParseGroundTruthPair [hard] [junk, easy])

/-- `ParseEasyMediumHardGroundTruth` (lines 91-124): easy/medium/hard subset
ground truth, one entry per query in input order. -/
def ParseEasyMediumHardGroundTruth (ground_truth : List QueryGTRaw) :
    Except String (List OkJunk × List OkJunk × List OkJunk) := do
  let triples ← ground_truth.mapM parseOneQuery
  pure (triples.map (fun t => t.1), triples.map (fun t => t.2.1),
        triples.map (fun t => t.2.2))

/-- The triple produced for one fully-populated query record. -/
def parseOneQueryTotal (g : QueryGTRaw) : OkJunk × OkJunk × OkJunk :=
  (ParseGroundTruthPair [g.easy.getD []] [g.junk.getD [], g.hard.getD []],
   ParseGroundTruthPair [g.easy.getD [], g.hard.getD []] [g.junk.getD []],
   ParseGroundTruthPair [g.hard.getD []] [g.junk.getD [], g.easy.getD []])

theorem parseOneQuery_of_total (g : QueryGTRaw)
    (he : g.easy.isSome) (hh : g.hard.isSome) (hj : g.junk.isSome) :
    parseOneQuery g = Except.ok (parseOneQueryTotal g) := by
  rcases g with ⟨e, h, j⟩
  cases e with
  | none => simp at he
  | some ev =>
    cases h with
    | none => simp at hh
    | some hv =>
      cases j with
      | none => simp at hj
      | some jv =>
        rfl

theorem mapM_parseOneQuery_ok (gts : List QueryGTRaw)
    (hk : ∀ g ∈ gts, g.easy.isSome ∧ g.hard.isSome ∧ g.junk.isSome) :
    gts.mapM parseOneQuery = Except.ok (gts.map parseOneQueryTotal) := by
  induction gts with
  | nil => rfl
  | cons g rest ih =>
    have hg := hk g (by simp)
    rw [List.mapM_cons, parseOneQuery_of_total g hg.1 hg.2.1 hg.2.2,
      ih (fun x hx => hk x (by simp [hx]))]
    rfl

/-- C6: for records carrying all three keys, `ParseEasyMediumHardGroundTruth`
succeeds and returns three lists with one entry per query in input order
where, as sets, easy has ok = easy and junk = hard ∪ junk, medium has
ok = easy ∪ hard and junk = junk, and hard has ok = hard and
junk = junk ∪ easy. -/
theorem parseEasyMediumHard_spec (gts : List QueryGTRaw)
    (hk : ∀ g ∈ gts, g.easy.isSome ∧ g.hard.isSome ∧ g.junk.isSome) :
    ∃ e m h, ParseEasyMediumHardGroundTruth gts = Except.ok (e, m, h) ∧
      e.length = gts.length ∧ m.length = gts.length ∧ h.length = gts.length ∧
      ∀ i, i < gts.length →
        (∀ x, x ∈ (e.getD i default).ok ↔ x ∈ (gts.getD i default).easy.getD []) ∧
        (∀ x, x ∈ (e.getD i default).junk ↔
          x ∈ (gts.getD i default).hard.getD [] ∨ x ∈ (gts.getD i default).junk.getD []) ∧
        (∀ x, x ∈ (m.getD i default).ok ↔
          x ∈ (gts.getD i default).easy.getD [] ∨ x ∈ (gts.getD i default).hard.getD []) ∧
        (∀ x, x ∈ (m.getD i default).junk ↔ x ∈ (gts.getD i default).junk.getD []) ∧
        (∀ x, x ∈ (h.getD i default).ok ↔ x ∈ (gts.getD i default).hard.getD []) ∧
        (∀ x, x ∈ (h.getD i default).junk ↔
          x ∈ (gts.getD i default).junk.getD [] ∨ x ∈ (gts.getD i default).easy.getD []) := by
  refine ⟨(gts.map parseOneQueryTotal).map (fun t => t.1),
    (gts.map parseOneQueryTotal).map (fun t => t.2.1),
    (gts.map parseOneQueryTotal).map (fun t => t.2.2), ?_, by simp, by simp, by simp, ?_⟩
  · unfold ParseEasyMediumHardGroundTruth
    rw [mapM_parseOneQuery_ok gts hk]
    rfl
  · intro i hi
    have hget : ∀ (f : OkJunk × OkJunk × OkJunk → OkJunk),
        ((gts.map parseOneQueryTotal).map f).getD i default
          = f (parseOneQueryTotal (gts.getD i default)) := by
      intro f
      rw [List.getD_eq_getElem?_getD, List.getElem?_map, List.getElem?_map,
        List.getD_eq_getElem?_getD]
      rcases List.getElem?_eq_some_iff.mpr ⟨hi, rfl⟩ with h
      rw [List.getElem?_eq_getElem hi]
      rfl
    rw [hget (fun t => t.1), hget (fun t => t.2.1), hget (fun t => t.2.2)]
    unfold parseOneQueryTotal ParseGroundTruthPair
    refine ⟨?_, ?_, ?_, ?_, ?_, ?_⟩ <;> intro x <;>
      simp [List.mem_append, or_comm]

/-- Witness for C6 at a concrete fully-populated input. -/
theorem parseEasyMediumHard_spec_witness :
    ∃ e m h,
      ParseEasyMediumHardGroundTruth [⟨some [1], some [2], some [3]⟩]
          = Except.ok (e, m, h) ∧
      e.length = ([⟨some [1], some [2], some [3]⟩] : List QueryGTRaw).length ∧
      m.length = ([⟨some [1], some [2], some [3]⟩] : List QueryGTRaw).length ∧
      h.length = ([⟨some [1], some [2], some [3]⟩] : List QueryGTRaw).length ∧
      ∀ i, i < ([⟨some [1], some [2], some [3]⟩] : List QueryGTRaw).length →
        (∀ x, x ∈ (e.getD i default).ok ↔
          x ∈ (([⟨some [1], some [2], some [3]⟩] : List QueryGTRaw).getD i default).easy.getD []) ∧
        (∀ x, x ∈ (e.getD i default).junk ↔
          x ∈ (([⟨some [1], some [2], some [3]⟩] : List QueryGTRaw).getD i default).hard.getD [] ∨
          x ∈ (([⟨some [1], some [2], some [3]⟩] : List QueryGTRaw).getD i default).junk.getD []) ∧
        (∀ x, x ∈ (m.getD i default).ok ↔
          x ∈ (([⟨some [1], some [2], some [3]⟩] : List QueryGTRaw).getD i default).easy.getD [] ∨
          x ∈ (([⟨some [1], some [2], some [3]⟩] : List QueryGTRaw).getD i default).hard.getD []) ∧
        (∀ x, x ∈ (m.getD i default).junk ↔
          x ∈ (([⟨some [1], some [2], some [3]⟩] : List QueryGTRaw).getD i default).junk.getD []) ∧
        (∀ x, x ∈ (h.getD i default).ok ↔
          x ∈ (([⟨some [1], some [2], some [3]⟩] : List QueryGTRaw).getD i default).hard.getD []) ∧
        (∀ x, x ∈ (h.getD i default).junk ↔
          x ∈ (([⟨some [1], some [2], some [3]⟩] : List QueryGTRaw).getD i default).junk.getD [] ∨
          x ∈ (([⟨some [1], some [2], some [3]⟩] : List QueryGTRaw).getD i default).easy.getD []) :=
  parseEasyMediumHard_spec [⟨some [1], some [2], some [3]⟩] (by simp)

theorem parseOneQuery_cases (g : QueryGTRaw) :
    (∃ v, parseOneQuery g = Except.ok v) ∨
    parseOneQuery g = Except.error "KeyError: easy" ∨
    parseOneQuery g = Except.error "KeyError: junk" ∨
    parseOneQuery g = Except.error "KeyError: hard" := by
  rcases g with ⟨e, h, j⟩
  cases e with
  | none => exact Or.inr (Or.inl rfl)
  | some ev =>
    cases j with
    | none => exact Or.inr (Or.inr (Or.inl rfl))
    | some jv =>
      cases h with
      | none => exact Or.inr (Or.inr (Or.inr rfl))
      | some hv => exact Or.inl ⟨_, rfl⟩

theorem parseOneQuery_fails (g : QueryGTRaw)
    (hmiss : g.easy = none ∨ g.hard = none ∨ g.junk = none) :
    parseOneQuery g = Except.error "KeyError: easy" ∨
    parseOneQuery g = Except.error "KeyError: junk" ∨
    parseOneQuery g = Except.error "KeyError: hard" := by
  rcases g with ⟨e, h, j⟩
  cases e with
  | none => exact Or.inl rfl
  | some ev =>
    cases j with
    | none => exact Or.inr (Or.inl rfl)
    | some jv =>
      cases h with
      | none => exact Or.inr (Or.inr rfl)
      | some hv => simp at hmiss

/-- C10: a ground-truth record lacking one of the keys `easy`, `hard`, `junk`
makes `ParseEasyMediumHardGroundTruth` fail with a `KeyError` naming one of
those keys, rather than treating the absent set as empty. -/
theorem parseEasyMediumHard_missing_key (gts : List QueryGTRaw) (g : QueryGTRaw)
    (hg : g ∈ gts) (hmiss : g.easy = none ∨ g.hard = none ∨ g.junk = none) :
    ∃ msg, ParseEasyMediumHardGroundTruth gts = Except.error msg ∧
      (msg = "KeyError: easy" ∨ msg = "KeyError: junk" ∨ msg = "KeyError: hard") := by
  have hfail : ∃ msg, gts.mapM parseOneQuery = Except.error msg ∧
      (msg = "KeyError: easy" ∨ msg = "KeyError: junk" ∨ msg = "KeyError: hard") := by
    induction gts with
    | nil => cases hg
    | cons a rest ih =>
      rw [List.mapM_cons]
      rcases List.mem_cons.mp hg with rfl | hmem
      · rcases parseOneQuery_fails g hmiss with hv | hv | hv
        · exact ⟨_, by simp only [hv]; rfl, Or.inl rfl⟩
        · exact ⟨_, by simp only [hv]; rfl, Or.inr (Or.inl rfl)⟩
        · exact ⟨_, by simp only [hv]; rfl, Or.inr (Or.inr rfl)⟩
      · rcases parseOneQuery_cases a with ⟨v, hv⟩ | hv | hv | hv
        · rcases ih hmem with ⟨msg, hmsg, hone⟩
          exact ⟨msg, by simp only [hv, hmsg]; rfl, hone⟩
        · exact ⟨_, by simp only [hv]; rfl, Or.inl rfl⟩
        · exact ⟨_, by simp only [hv]; rfl, Or.inr (Or.inl rfl)⟩
        · exact ⟨_, by simp only [hv]; rfl, Or.inr (Or.inr rfl)⟩
  rcases hfail with ⟨msg, hmsg, hone⟩
  refine ⟨msg, ?_, hone⟩
  unfold ParseEasyMediumHardGroundTruth
  rw [hmsg]
  rfl

theorem parseEasyMediumHard_missing_key_witness :
    ∃ msg,
      ParseEasyMediumHardGroundTruth [⟨none, some [2], some [3]⟩] = Except.error msg ∧
      (msg = "KeyError: easy" ∨ msg = "KeyError: junk" ∨ msg = "KeyError: hard") :=
  parseEasyMediumHard_missing_key [⟨none, some [2], some [3]⟩]
    ⟨none, some [2], some [3]⟩ (by simp) (by simp)

/-- Positions (ranks) within `row` whose image id belongs to `ids`:
`np.arange(num_index_images)[np.in1d(sorted_index_ids[i], ids)]`
(retrieval_ensemble.py lines 304-307). -/
def ranksWhereMember (row : List ℤ) (ids : List ℤ) (num_index_images : ℕ) : List ℤ :=
  ((List.range num_index_images).filter (fun r => decide (row.getD r 0 ∈ ids))).map
    (fun r => (r : ℤ))

/-- Body of the per-query loop of `ComputeMetrics` (lines 293-317); `none`
models the NaN row written for a query whose `ok` set is empty. -/
def perQueryMetrics (num_index_images : ℕ) (desired_pr_ranks : List ℤ)
    (row : List ℤ) (gt : OkJunk) : Option (ℚ × List ℚ × List ℚ) :=
  if gt.ok.length = 0 then none
  else
    let positive_ranks := ranksWhereMember row gt.ok num_index_images
    let junk_ranks := ranksWhereMember row gt.junk num_index_images
    let adjusted_positive_ranks := AdjustPositiveRanks positive_ranks junk_ranks
    let pr := ComputePRAtRanks adjusted_positive_ranks desired_pr_ranks
    some (ComputeAveragePrecision adjusted_positive_ranks, pr.1, pr.2)

/-- Elementwise vector sum (`mean_precisions += precisions[i, :]`). -/
def vecAdd (a b : List ℚ) : List ℚ := List.zipWith (· + ·) a b

/-- The six outputs of `ComputeMetrics`; NaN-filled per-query rows are
modelled by `none`. -/
structure MetricsResult where
  mean_average_precision : ℚ
  mean_precisions : List ℚ
  mean_recalls : List ℚ
  average_precisions : List (Option ℚ)
  precisions : List (Option (List ℚ))
  recalls : List (Option (List ℚ))
deriving DecidableEq, Inhabited

/-- `ComputeMetrics` (lines 237-326).  `sorted(desired_pr_ranks)[-1]` is the
maximum of the desired ranks (an IndexError on the empty list); a query with
empty `ok` contributes a NaN (`none`) row and is skipped by the sums; when
`num_valid_queries = 0` the scalar division
`mean_average_precision /= num_valid_queries` raises `ZeroDivisionError`. -/
def ComputeMetrics (sorted_index_ids : List (List ℤ)) (ground_truth : List OkJunk)
    (desired_pr_ranks : List ℤ) : Except String MetricsResult :=
  let num_queries := sorted_index_ids.length
  let num_index_images := (sorted_index_ids.headD []).length
  if desired_pr_ranks.length = 0 then
    Except.error "IndexError: list index out of range"
  else if listMaxZ desired_pr_ranks > (num_index_images : ℤ) then
    Except.error "ValueError: requested PR ranks exceed the number of index images"
  else
    let results := (sorted_index_ids.zip ground_truth).map
      (fun q => perQueryMetrics num_index_images desired_pr_ranks q.1 q.2)
    let valid := results.filterMap id
    let num_empty_gt_queries := results.countP (fun r => r.isNone)
    let num_valid_queries := num_queries - num_empty_gt_queries
    if num_valid_queries = 0 then
      Except.error "ZeroDivisionError: float division by zero"
    else
      Except.ok
        { mean_average_precision :=
            (valid.map (fun v => v.1)).sum / (num_valid_queries : ℚ)
          mean_precisions :=
            ((valid.map (fun v => v.2.1)).foldl vecAdd
              (List.replicate desired_pr_ranks.length 0)).map
              (fun x => x / (num_valid_queries : ℚ))
          mean_recalls :=
            ((valid.map (fun v => v.2.2)).foldl vecAdd
              (List.replicate desired_pr_ranks.length 0)).map
              (fun x => x / (num_valid_queries : ℚ))
          average_precisions := results.map (fun r => r.map (fun v => v.1))
          precisions := results.map (fun r => r.map (fun v => v.2.1))
          recalls := results.map (fun r => r.map (fun v => v.2.2)) }

theorem perQueryMetrics_eq_none_iff (N : ℕ) (d row : List ℤ) (gt : OkJunk) :
    perQueryMetrics N d row gt = none ↔ gt.ok = [] := by
  unfold perQueryMetrics
  by_cases h : gt.ok.length = 0
  · simp [h, List.length_eq_zero.mp h]
  · rw [if_neg h]
    simp only [reduceCtorEq, false_iff]
    intro he
    exact h (by simp [he])

theorem perQueryMetrics_isNone (N : ℕ) (d row : List ℤ) (gt : OkJunk) :
    (perQueryMetrics N d row gt).isNone = decide (gt.ok = []) := by
  by_cases h : gt.ok = []
  · simp [h, (perQueryMetrics_eq_none_iff N d row gt).mpr h]
  · have : ¬ perQueryMetrics N d row gt = none := by
      intro he
      exact h ((perQueryMetrics_eq_none_iff N d row gt).mp he)
    simp [h, Option.isNone_eq_false_iff, Option.isSome_iff_ne_none, this]

theorem countP_zip_snd (p : OkJunk → Bool) :
    ∀ (rows : List (List ℤ)) (gts : List OkJunk), gts.length = rows.length →
      (rows.zip gts).countP (fun q => p q.2) = gts.countP p := by
  intro rows
  induction rows with
  | nil =>
    intro gts h
    rw [List.length_nil] at h
    rw [List.length_eq_zero.mp h]
    rfl
  | cons r rrest ih =>
    intro gts h
    match gts with
    | [] => simp at h
    | g :: grest =>
      rw [List.zip_cons_cons, List.countP_cons, List.countP_cons,
        ih grest (by simpa using h)]

theorem foldl_max_le (b : ℤ) : ∀ (l : List ℤ) (x : ℤ), x ≤ b → (∀ k ∈ l, k ≤ b) →
    l.foldl max x ≤ b := by
  intro l
  induction l with
  | nil => intro x hx _; simpa using hx
  | cons y rest ih =>
    intro x hx hall
    rw [List.foldl_cons]
    exact ih (max x y) (max_le hx (hall y (by simp))) (fun k hk => hall k (by simp [hk]))

theorem listMaxZ_le (l : List ℤ) (b : ℤ) (hne : l ≠ []) (hall : ∀ k ∈ l, k ≤ b) :
    listMaxZ l ≤ b := by
  match l with
  | [] => exact absurd rfl hne
  | x :: rest =>
    exact foldl_max_le b rest x (hall x (by simp)) (fun k hk => hall k (by simp [hk]))

theorem filterMap_id_map_optionMap {α β : Type} (f : α → β) :
    ∀ (l : List (Option α)),
      (l.map (fun r => r.map f)).filterMap id = (l.filterMap id).map f := by
  intro l
  induction l with
  | nil => rfl
  | cons a rest ih => cases a <;> simp [ih]

/-- C9: when every query's `ok` set is empty (so `num_valid_queries = 0`) and
the desired-rank precondition holds, `ComputeMetrics` fails with the
division-by-zero error instead of returning NaN or zero aggregate means. -/
theorem computeMetrics_zero_valid (rows : List (List ℤ)) (gts : List OkJunk)
    (desired : List ℤ)
    (hlen : gts.length = rows.length)
    (hne : ¬desired.length = 0)
    (hmax : ¬listMaxZ desired > (((rows.headD []).length : ℕ) : ℤ))
    (hempty : ∀ g ∈ gts, g.ok = []) :
    ComputeMetrics rows gts desired
      = Except.error "ZeroDivisionError: float division by zero" := by
  simp only [ComputeMetrics]
  rw [if_neg hne, if_neg hmax]
  have hcount : ((rows.zip gts).map
        (fun q => perQueryMetrics (rows.headD []).length desired q.1 q.2)).countP
        (fun r => r.isNone) = rows.length := by
    rw [List.countP_map]
    have heq : ∀ q ∈ rows.zip gts,
        ((fun r => r.isNone) ∘
          (fun q => perQueryMetrics (rows.headD []).length desired q.1 q.2)) q = true := by
      intro q hq
      have h2 : q.2 ∈ gts := (List.of_mem_zip hq).2
      simp only [Function.comp_apply, perQueryMetrics_isNone, decide_eq_true_eq]
      exact hempty q.2 h2
    rw [List.countP_eq_length.mpr heq, List.length_zip, hlen, Nat.min_self]
  rw [hcount, Nat.sub_self]
  rfl

theorem computeMetrics_zero_valid_witness :
    ComputeMetrics [[5], [6]] [⟨[], []⟩, ⟨[], [2]⟩] [1]
      = Except.error "ZeroDivisionError: float division by zero" :=
  computeMetrics_zero_valid [[5], [6]] [⟨[], []⟩, ⟨[], [2]⟩] [1]
    (by decide) (by decide) (by decide) (by decide)

/-- C2 counterexample: on a 1-by-1 ranking matrix whose single query has an
empty `ok` set (and desired ranks within bounds), `ComputeMetrics` raises a
`ZeroDivisionError` instead of returning aggregate means; the claim as
stated, which promises returned means for every such input, fails here. -/
theorem computeMetrics_no_return_counterexample :
    ComputeMetrics [[0]] [⟨[], []⟩] [1]
      = Except.error "ZeroDivisionError: float division by zero" := rfl

/-- C2 (amended with the precondition that at least one query has a non-empty
`ok` set): `ComputeMetrics` returns NaN (`none`) per-query AP, precisions and
recalls exactly for the queries whose `ok` set is empty, excludes those
queries from every aggregate sum, and returns mean AP / precisions / recalls
equal to the sum of the corresponding per-query values over the remaining
queries divided by `num_valid_queries = Q - (number of empty-ok queries)`. -/
theorem computeMetrics_aggregates (rows : List (List ℤ)) (gts : List OkJunk)
    (desired : List ℤ) (N : ℕ)
    (hrows : ∀ r ∈ rows, r.length = N)
    (hlen : gts.length = rows.length)
    (hne : desired ≠ [])
    (hmax : ∀ k ∈ desired, k ≤ (N : ℤ))
    (hvalid : ∃ g ∈ gts, g.ok ≠ []) :
    ∃ res, ComputeMetrics rows gts desired = Except.ok res ∧
      res.average_precisions.length = rows.length ∧
      res.precisions.length = rows.length ∧
      res.recalls.length = rows.length ∧
      (∀ i, i < rows.length →
        (res.average_precisions.getD i none = none ↔ (gts.getD i default).ok = []) ∧
        (res.precisions.getD i none = none ↔ (gts.getD i default).ok = []) ∧
        (res.recalls.getD i none = none ↔ (gts.getD i default).ok = [])) ∧
      res.mean_average_precision
        = (res.average_precisions.filterMap id).sum
            / (((rows.length - gts.countP (fun g => decide (g.ok = []))) : ℕ) : ℚ) ∧
      res.mean_precisions
        = ((res.precisions.filterMap id).foldl vecAdd
            (List.replicate desired.length 0)).map
            (fun x => x / (((rows.length - gts.countP (fun g => decide (g.ok = []))) : ℕ) : ℚ)) ∧
      res.mean_recalls
        = ((res.recalls.filterMap id).foldl vecAdd
            (List.replicate desired.length 0)).map
            (fun x => x / (((rows.length - gts.countP (fun g => decide (g.ok = []))) : ℕ) : ℚ)) := by
  have hgts_ne : gts ≠ [] := by
    rcases hvalid with ⟨g, hg, _⟩
    intro h
    rw [h] at hg
    cases hg
  have hrows_ne : rows ≠ [] := by
    intro h
    rw [h] at hlen
    exact hgts_ne (List.length_eq_zero.mp (by simpa using hlen))
  have hhead : (rows.headD []).length = N := by
    have : rows.headD [] ∈ rows := by
      match rows, hrows_ne with
      | r :: rest, _ => simp
    exact hrows _ this
  have hne' : ¬desired.length = 0 := by
    intro h
    exact hne (List.length_eq_zero.mp h)
  have hmax' : ¬listMaxZ desired > (((rows.headD []).length : ℕ) : ℤ) := by
    rw [hhead]
    simp only [not_lt]
    exact listMaxZ_le desired (N : ℤ) hne hmax
  have hcount : ((rows.zip gts).map
        (fun q => perQueryMetrics (rows.headD []).length desired q.1 q.2)).countP
        (fun r => r.isNone) = gts.countP (fun g => decide (g.ok = [])) := by
    rw [List.countP_map]
    have heq : ((fun r => r.isNone) ∘
          (fun q : List ℤ × OkJunk => perQueryMetrics (rows.headD []).length desired q.1 q.2))
        = (fun (q : List ℤ × OkJunk) => decide (q.2.ok = [])) := by
      funext q
      simp [perQueryMetrics_isNone]
    rw [heq]
    exact countP_zip_snd (fun g => decide (g.ok = [])) rows gts hlen
  have hcount_lt : gts.countP (fun g => decide (g.ok = [])) < gts.length := by
    rcases hvalid with ⟨g0, hg0, hgok⟩
    have hle : gts.countP (fun g => decide (g.ok = [])) ≤ gts.length :=
      List.countP_le_length _
    have hne2 : gts.countP (fun g => decide (g.ok = [])) ≠ gts.length := by
      intro heq
      have := List.countP_eq_length.mp heq g0 hg0
      simp only [decide_eq_true_eq] at this
      exact hgok this
    omega
  have hnv : ¬(rows.length - ((rows.zip gts).map
        (fun q => perQueryMetrics (rows.headD []).length desired q.1 q.2)).countP
        (fun r => r.isNone)) = 0 := by
    rw [hcount]
    omega
  simp only [ComputeMetrics]
  rw [if_neg hne', if_neg hmax', if_neg hnv]
  refine ⟨_, rfl, ?_, ?_, ?_, ?_, ?_, ?_, ?_⟩
  · simp [List.length_zip, hlen]
  · simp [List.length_zip, hlen]
  · simp [List.length_zip, hlen]
  · intro i hi
    have hilen : i < gts.length := by omega
    have hzip : (rows.zip gts)[i]? = some (rows.get ⟨i, hi⟩, gts.get ⟨i, hilen⟩) := by
      rw [List.getElem?_zip_eq_some]
      exact ⟨List.getElem?_eq_getElem hi, List.getElem?_eq_getElem hilen⟩
    have hgtd : gts.getD i default = gts.get ⟨i, hilen⟩ := by
      rw [List.getD_eq_getElem?_getD, List.getElem?_eq_getElem hilen]
      rfl
    have key : ∀ {β : Type} (f : ℚ × List ℚ × List ℚ → β),
        ((((rows.zip gts).map
            (fun q => perQueryMetrics (rows.headD []).length desired q.1 q.2)).map
            (fun r => r.map f)).getD i none = none ↔ (gts.getD i default).ok = []) := by
      intro β f
      rw [List.getD_eq_getElem?_getD, List.getElem?_map, List.getElem?_map, hzip, hgtd]
      simp only [Option.map_some', Option.getD_some, Option.map_eq_none']
      exact perQueryMetrics_eq_none_iff _ _ _ _
    exact ⟨key _, key _, key _⟩
  · rw [filterMap_id_map_optionMap, hcount]
  · rw [filterMap_id_map_optionMap, hcount]
  · rw [filterMap_id_map_optionMap, hcount]

theorem computeMetrics_aggregates_witness :
    ∃ res, ComputeMetrics [[0, 1], [0, 1]] [⟨[0], []⟩, ⟨[], []⟩] [1] = Except.ok res ∧
      res.average_precisions.length = 2 := by
  rcases computeMetrics_aggregates [[0, 1], [0, 1]] [⟨[0], []⟩, ⟨[], []⟩] [1] 2
      (by decide) (by decide) (by decide) (by decide) (by decide) with ⟨res, h1, h2, _⟩
  exact ⟨res, h1, by rw [h2]; rfl⟩

/-- ASCII digit character for `d ≤ 9`. -/
def digitChar (d : ℕ) : Char := Char.ofNat (48 + d)

/-- Decimal digit characters of a natural number, by fuelled division
(`fuel > n` suffices). -/
def natDigits : ℕ → ℕ → List Char
  | 0, _ => []
  | fuel + 1, n =>
    if n < 10 then [digitChar n]
    else natDigits fuel (n / 10) ++ [digitChar (n % 10)]

/-- Decimal digit characters of `n`. -/
def natChars (n : ℕ) : List Char := natDigits (n + 1) n

/-- Numeric value of an ASCII digit character. -/
def digitVal (c : Char) : Option ℕ :=
  if 48 ≤ c.toNat ∧ c.toNat ≤ 57 then some (c.toNat - 48) else none

/-- One step of decimal accumulation. -/
def digitStep (acc : Option ℕ) (c : Char) : Option ℕ :=
  match acc, digitVal c with
  | some a, some d => some (a * 10 + d)
  | _, _ => none

/-- Python `int` on a nonempty all-digit string (canonical digit strings
only). -/
def digitsToNat (cs : List Char) : Option ℕ :=
  if cs.isEmpty then none else cs.foldl digitStep (some 0)

theorem digitVal_digitChar (d : ℕ) (hd : d < 10) : digitVal (digitChar d) = some d := by
  interval_cases d <;> decide

theorem natDigits_ne_nil (fuel n : ℕ) : natDigits (fuel + 1) n ≠ [] := by
  unfold natDigits
  by_cases h : n < 10
  · simp [h]
  · rw [if_neg h]
    simp

theorem natDigits_foldl (fuel : ℕ) :
    ∀ n a, n < fuel →
      (natDigits fuel n).foldl digitStep (some a)
        = some (a * 10 ^ (natDigits fuel n).length + n) := by
  induction fuel with
  | zero => intro n a h; omega
  | succ f ih =>
    intro n a h
    unfold natDigits
    by_cases hn : n < 10
    · rw [if_pos hn]
      simp only [List.foldl_cons, List.foldl_nil, List.length_singleton]
      unfold digitStep
      rw [digitVal_digitChar n hn]
      simp [pow_one]
    · rw [if_neg hn]
      have hlt : n / 10 < f := by
        have h1 : n / 10 < n := Nat.div_lt_self (by omega) (by omega)
        omega
      rw [List.foldl_append, ih (n / 10) a hlt]
      simp only [List.foldl_cons, List.foldl_nil, List.length_append,
        List.length_singleton]
      unfold digitStep
      rw [digitVal_digitChar (n % 10) (Nat.mod_lt n (by omega))]
      show some ((a * 10 ^ (natDigits f (n / 10)).length + n / 10) * 10 + n % 10)
          = some (a * 10 ^ ((natDigits f (n / 10)).length + 1) + n)
      congr 1
      rw [pow_succ, ← mul_assoc]
      generalize a * 10 ^ (natDigits f (n / 10)).length = P
      omega

theorem digitsToNat_natChars (n : ℕ) : digitsToNat (natChars n) = some n := by
  unfold digitsToNat natChars
  rw [if_neg (by simp [natDigits_ne_nil])]
  rw [natDigits_foldl (n + 1) n 0 (by omega)]
  simp

theorem natDigits_mem_toNat (fuel : ℕ) :
    ∀ n c, c ∈ natDigits fuel n → 48 ≤ c.toNat ∧ c.toNat ≤ 57 := by
  induction fuel with
  | zero => intro n c hc; simp [natDigits] at hc
  | succ f ih =>
    intro n c hc
    unfold natDigits at hc
    by_cases hn : n < 10
    · rw [if_pos hn] at hc
      simp only [List.mem_singleton] at hc
      subst hc
      have : (digitChar n).toNat = 48 + n := by
        unfold digitChar
        interval_cases n <;> decide
      omega
    · rw [if_neg hn] at hc
      rcases List.mem_append.mp hc with h1 | h1
      · exact ih (n / 10) c h1
      · simp only [List.mem_singleton] at h1
        subst h1
        have hm : n % 10 < 10 := Nat.mod_lt n (by omega)
        have : (digitChar (n % 10)).toNat = 48 + n % 10 := by
          unfold digitChar
          interval_cases hx : (n % 10) <;> decide
        omega

theorem natChars_mem_toNat (n : ℕ) (c : Char) (hc : c ∈ natChars n) :
    48 ≤ c.toNat ∧ c.toNat ≤ 57 :=
  natDigits_mem_toNat (n + 1) n c hc

theorem digitChar_toNat (d : ℕ) (hd : d < 10) : (digitChar d).toNat = 48 + d := by
  unfold digitChar
  interval_cases d <;> decide

/-- Integer rendering (`str` of a NumPy integer). -/
def intChars (i : ℤ) : List Char :=
  (if i < 0 then ['-'] else []) ++ natChars i.natAbs

/-- Leading-sign split used by numeric parsing. -/
def parseSign (cs : List Char) : Bool × List Char :=
  if cs.headD ' ' = '-' then (true, cs.tail) else (false, cs)

/-- Python `int` on canonical decimal notation. -/
def parseIntChars (cs : List Char) : Option ℤ :=
  let s := parseSign cs
  (digitsToNat s.2).map (fun n => if s.1 then -(n : ℤ) else (n : ℤ))

/-- Python `str.split(c)` on a single separator character. -/
def splitOnChar (c : Char) : List Char → List (List Char)
  | [] => [[]]
  | x :: rest =>
    if x = c then [] :: splitOnChar c rest
    else
      match splitOnChar c rest with
      | [] => [[x]]
      | h :: t => (x :: h) :: t

/-- Interpretation of the dot-separated pieces of a decimal numeral. -/
def parseDecimalParts (neg : Bool) : List (List Char) → Option ℚ
  | [a] => (digitsToNat a).map (fun n : ℕ => if neg then -(n : ℚ) else (n : ℚ))
  | [a, b] =>
    (digitsToNat a).bind (fun ia : ℕ =>
      (if b.isEmpty then some 0
       else (digitsToNat b).map (fun nb : ℕ => (nb : ℚ) / (10 ^ b.length : ℚ))).map
        (fun q => if neg then -((ia : ℚ) + q) else (ia : ℚ) + q))
  | _ => none

/-- Python `float` on canonical decimal notation (sign, integer digits,
optional fraction). -/
def parseDecimal (cs : List Char) : Option ℚ :=
  let s := parseSign cs
  parseDecimalParts s.1 (splitOnChar '.' s.2)

/-- Fractional digits of the two-decimal value `fr / 100` (`fr < 100`),
trailing zero trimmed as NumPy `str` does. -/
def centiFrac (fr : ℕ) : List Char :=
  if fr = 0 then ['0']
  else if fr % 10 = 0 then [digitChar (fr / 10)]
  else [digitChar (fr / 10), digitChar (fr % 10)]

/-- Decimal rendering of the value `m / 100` (`str` of
`np.around(x, decimals = 2)` in non-scientific notation). -/
def centiChars (m : ℤ) : List Char :=
  (if m < 0 then ['-'] else []) ++ natChars (m.natAbs / 100) ++
    '.' :: centiFrac (m.natAbs % 100)

theorem splitOnChar_ne_nil (c : Char) : ∀ l, splitOnChar c l ≠ [] := by
  intro l
  induction l with
  | nil => simp [splitOnChar]
  | cons x rest ih =>
    unfold splitOnChar
    by_cases h : x = c
    · simp [h]
    · rw [if_neg h]
      match hr : splitOnChar c rest with
      | [] => simp
      | hh :: tt => simp

theorem splitOnChar_no_occ (c : Char) :
    ∀ (a : List Char), c ∉ a → splitOnChar c a = [a] := by
  intro a
  induction a with
  | nil => intro _; rfl
  | cons x rest ih =>
    intro h
    have hx : ¬x = c := fun he => h (by simp [he])
    have hrest : c ∉ rest := fun hm => h (by simp [hm])
    unfold splitOnChar
    rw [if_neg hx, ih hrest]

theorem splitOnChar_append (c : Char) :
    ∀ (a b : List Char), c ∉ a →
      splitOnChar c (a ++ c :: b) = a :: splitOnChar c b := by
  intro a
  induction a with
  | nil =>
    intro b _
    simp only [List.nil_append]
    simp only [splitOnChar]
    simp
  | cons x rest ih =>
    intro b h
    have hx : ¬x = c := fun he => h (by simp [he])
    have hrest : c ∉ rest := fun hm => h (by simp [hm])
    simp only [List.cons_append]
    simp only [splitOnChar]
    rw [if_neg hx, ih b hrest]

theorem splitOnChar_single (c : Char) (a b : List Char) (ha : c ∉ a) (hb : c ∉ b) :
    splitOnChar c (a ++ c :: b) = [a, b] := by
  rw [splitOnChar_append c a b ha, splitOnChar_no_occ c b hb]

theorem headD_mem {l : List Char} (hne : l ≠ []) (d : Char) : l.headD d ∈ l := by
  cases l with
  | nil => exact absurd rfl hne
  | cons x t => simp

theorem headD_append {l r : List Char} (hne : l ≠ []) (d : Char) :
    (l ++ r).headD d = l.headD d := by
  cases l with
  | nil => exact absurd rfl hne
  | cons x t => rfl

theorem natChars_ne_nil (n : ℕ) : natChars n ≠ [] := natDigits_ne_nil n n

theorem natChars_headD_ne_neg (n : ℕ) : ¬(natChars n).headD ' ' = '-' := by
  intro h
  have hmem := headD_mem (natChars_ne_nil n) ' '
  rw [h] at hmem
  have := natChars_mem_toNat n '-' hmem
  have h45 : ('-').toNat = 45 := rfl
  omega

theorem dot_not_mem_natChars (n : ℕ) : '.' ∉ natChars n := by
  intro hm
  have := natChars_mem_toNat n '.' hm
  have h46 : ('.').toNat = 46 := rfl
  omega

theorem centiFrac_mem_toNat (fr : ℕ) (hfr : fr < 100) (c : Char)
    (hc : c ∈ centiFrac fr) : 48 ≤ c.toNat ∧ c.toNat ≤ 57 := by
  unfold centiFrac at hc
  by_cases h0 : fr = 0
  · rw [if_pos h0] at hc
    simp only [List.mem_singleton] at hc
    subst hc
    decide
  · rw [if_neg h0] at hc
    by_cases h10 : fr % 10 = 0
    · rw [if_pos h10] at hc
      simp only [List.mem_singleton] at hc
      subst hc
      rw [digitChar_toNat (fr / 10) (by omega)]
      omega
    · rw [if_neg h10] at hc
      simp only [List.mem_cons, List.mem_singleton] at hc
      rcases hc with rfl | rfl | habs
      · rw [digitChar_toNat (fr / 10) (by omega)]
        omega
      · rw [digitChar_toNat (fr % 10) (by omega)]
        omega
      · cases habs

theorem dot_not_mem_centiFrac (fr : ℕ) (hfr : fr < 100) : '.' ∉ centiFrac fr := by
  intro hm
  have := centiFrac_mem_toNat fr hfr '.' hm
  have h46 : ('.').toNat = 46 := rfl
  omega

theorem centiFrac_ne_nil (fr : ℕ) : centiFrac fr ≠ [] := by
  unfold centiFrac
  by_cases h0 : fr = 0
  · simp [h0]
  · rw [if_neg h0]
    by_cases h10 : fr % 10 = 0 <;> simp [h10]

theorem centiFrac_val (fr : ℕ) (hfr : fr < 100) :
    ∃ nb, digitsToNat (centiFrac fr) = some nb ∧
      (nb : ℚ) / (10 ^ (centiFrac fr).length : ℚ) = (fr : ℚ) / 100 := by
  unfold centiFrac
  by_cases h0 : fr = 0
  · subst h0
    refine ⟨0, by decide, by norm_num⟩
  · rw [if_neg h0]
    by_cases h10 : fr % 10 = 0
    · rw [if_pos h10]
      refine ⟨fr / 10, ?_, ?_⟩
      · unfold digitsToNat
        rw [if_neg (by simp)]
        simp only [List.foldl_cons, List.foldl_nil]
        unfold digitStep
        rw [digitVal_digitChar (fr / 10) (by omega)]
        simp
      · have h110 : fr = 10 * (fr / 10) := by omega
        rw [List.length_singleton, pow_one]
        rw [show ((fr : ℚ)) = ((10 * (fr / 10) : ℕ) : ℚ) from by exact_mod_cast congrArg Nat.cast h110]
        push_cast
        ring
    · rw [if_neg h10]
      refine ⟨fr / 10 * 10 + fr % 10, ?_, ?_⟩
      · unfold digitsToNat
        rw [if_neg (by simp)]
        simp only [List.foldl_cons, List.foldl_nil]
        unfold digitStep
        rw [digitVal_digitChar (fr / 10) (by omega)]
        simp only []
        rw [digitVal_digitChar (fr % 10) (by omega)]
        simp
      · have h110 : fr / 10 * 10 + fr % 10 = fr := by omega
        rw [h110, List.length_cons, List.length_singleton]
        norm_num

theorem parseIntChars_intChars (i : ℤ) : parseIntChars (intChars i) = some i := by
  by_cases h : i < 0
  · have h1 : intChars i = '-' :: natChars i.natAbs := by
      unfold intChars
      rw [if_pos h, List.singleton_append]
    rw [h1]
    unfold parseIntChars parseSign
    simp [digitsToNat_natChars]
    rw [abs_of_neg h]
    ring
  · have h1 : intChars i = natChars i.natAbs := by
      unfold intChars
      rw [if_neg h, List.nil_append]
    rw [h1]
    unfold parseIntChars parseSign
    rw [if_neg (natChars_headD_ne_neg i.natAbs)]
    simp [digitsToNat_natChars]
    omega

theorem parseDecimalParts_pair (neg : Bool) (a b : List Char) :
    parseDecimalParts neg [a, b] =
      (digitsToNat a).bind (fun ia : ℕ =>
        (if b.isEmpty then some 0
         else (digitsToNat b).map (fun nb : ℕ => (nb : ℚ) / (10 ^ b.length : ℚ))).map
          (fun q => if neg then -((ia : ℚ) + q) else (ia : ℚ) + q)) := rfl

theorem parseDecimal_centiChars (m : ℤ) :
    parseDecimal (centiChars m) = some ((m : ℚ) / 100) := by
  have hfr : m.natAbs % 100 < 100 := Nat.mod_lt _ (by omega)
  have hsplit : splitOnChar '.'
        (natChars (m.natAbs / 100) ++ '.' :: centiFrac (m.natAbs % 100))
      = [natChars (m.natAbs / 100), centiFrac (m.natAbs % 100)] :=
    splitOnChar_single '.' _ _ (dot_not_mem_natChars _) (dot_not_mem_centiFrac _ hfr)
  rcases centiFrac_val (m.natAbs % 100) hfr with ⟨nb, hnb, hq⟩
  have hfrne : ¬(centiFrac (m.natAbs % 100)).isEmpty = true := by
    simp [List.isEmpty_iff, centiFrac_ne_nil]
  have hdm : 100 * (m.natAbs / 100) + m.natAbs % 100 = m.natAbs :=
    Nat.div_add_mod _ 100
  have hQ1 : ((m.natAbs : ℕ) : ℚ)
      = 100 * ((m.natAbs / 100 : ℕ) : ℚ) + ((m.natAbs % 100 : ℕ) : ℚ) := by
    exact_mod_cast (congrArg Nat.cast hdm).symm
  by_cases h : m < 0
  · have h1 : centiChars m
        = '-' :: (natChars (m.natAbs / 100) ++ '.' :: centiFrac (m.natAbs % 100)) := by
      unfold centiChars
      rw [if_pos h]
      simp [List.append_assoc]
    rw [h1]
    show parseDecimalParts true (splitOnChar '.'
        (natChars (m.natAbs / 100) ++ '.' :: centiFrac (m.natAbs % 100)))
      = some ((m : ℚ) / 100)
    rw [hsplit]
    rw [parseDecimalParts_pair, digitsToNat_natChars]
    simp only [Option.some_bind]
    rw [if_neg hfrne, hnb]
    rw [Option.map_some', Option.map_some']
    congr 1
    have hQ2 : (m : ℚ) = -((m.natAbs : ℕ) : ℚ) := by
      rw [Int.cast_natAbs, abs_of_neg h]
      push_cast
      ring
    rw [if_pos trivial, hq, hQ2, hQ1]
    ring
  · have h1 : centiChars m
        = natChars (m.natAbs / 100) ++ '.' :: centiFrac (m.natAbs % 100) := by
      unfold centiChars
      rw [if_neg h, List.nil_append]
    rw [h1]
    unfold parseDecimal
    have hps : parseSign (natChars (m.natAbs / 100) ++ '.' :: centiFrac (m.natAbs % 100))
        = (false, natChars (m.natAbs / 100) ++ '.' :: centiFrac (m.natAbs % 100)) := by
      unfold parseSign
      rw [if_neg (by
        rw [headD_append (natChars_ne_nil _) ' ']
        exact natChars_headD_ne_neg _)]
    simp only [hps]
    rw [hsplit]
    rw [parseDecimalParts_pair, digitsToNat_natChars]
    simp only [Option.some_bind]
    rw [if_neg hfrne, hnb]
    rw [Option.map_some', Option.map_some']
    congr 1
    have hQ2 : (m : ℚ) = ((m.natAbs : ℕ) : ℚ) := by
      rw [Int.cast_natAbs, abs_of_nonneg (show (0 : ℤ) ≤ m by omega)]
    rw [if_neg (by simp), hq, hQ2, hQ1]
    ring

/-- Python `str.startswith`. -/
def startsWithList : List Char → List Char → Bool
  | [], _ => true
  | _ :: _, [] => false
  | p :: ps, x :: xs => decide (p = x) && startsWithList ps xs

/-- Single-space join, the inverse image of Python `str.split()` for
space-free nonempty tokens (NumPy array rendering uses variable-width
spacing, which `split()` collapses identically). -/
def joinSep : List (List Char) → List Char
  | [] => []
  | [t] => t
  | t :: rest => t ++ ' ' :: joinSep rest

/-- Bracketed space-separated token list, `str` of a NumPy array. -/
def bracketTokens (toks : List (List Char)) : List Char :=
  '[' :: joinSep toks ++ [']']

/-- Line label `"  mAP="`. -/
def mAPLabel : List Char := [' ', ' ', 'm', 'A', 'P', '=']

/-- Line label `"  mP@k"`. -/
def mPkLabel : List Char := [' ', ' ', 'm', 'P', '@', 'k']

/-- Line label `"  mR@k"`. -/
def mRkLabel : List Char := [' ', ' ', 'm', 'R', '@', 'k']

/-- Centi-units of `np.around(v * 100, decimals = 2)`: the printed number is
`percentRound v / 100`.  NumPy rounds half to even while `round` rounds half
away from zero; both stay within half a unit, which is all the round-trip
bound uses. -/
def percentRound (v : ℚ) : ℤ := round (v * 100 * 100)

/-- The four text lines written for one protocol by `SaveMetricsFile`
(retrieval_ensemble.py lines 343-347). -/
def metricsBlock (protocol : List Char) (map_val : ℚ) (precs recs : List ℚ)
    (pr_ranks : List ℤ) : List (List Char) :=
  [protocol,
   mAPLabel ++ centiChars (percentRound map_val),
   mPkLabel ++ bracketTokens (pr_ranks.map intChars) ++
     ' ' :: bracketTokens ((precs.map percentRound).map centiChars),
   mRkLabel ++ bracketTokens (pr_ranks.map intChars) ++
     ' ' :: bracketTokens ((recs.map percentRound).map centiChars)]

/-- Lexicographic (code point) comparison of Python strings. -/
def charListLt : List Char → List Char → Bool
  | [], [] => false
  | [], _ :: _ => true
  | _ :: _, [] => false
  | a :: as, b :: bs => if a < b then true else if b < a then false else charListLt as bs

/-- Python `<=` on strings. -/
def charListLe (x y : List Char) : Bool := !(charListLt y x)

/-- Insertion step of sorting the protocol names. -/
def insertKey (k : List Char) : List (List Char) → List (List Char)
  | [] => [k]
  | x :: rest => if charListLe k x then k :: x :: rest else x :: insertKey k rest

/-- Python `sorted` on the protocol names. -/
def sortKeys (l : List (List Char)) : List (List Char) := l.foldr insertKey []

/-- Association-list counterpart of a Python dict lookup. -/
def assocGet {α : Type} (k : List Char) : List (List Char × α) → Option α
  | [] => none
  | (k2, v) :: rest => if k2 = k then some v else assocGet k rest

/-- `SaveMetricsFile` (lines 329-347): one 4-line block per protocol, in
sorted key order; the file is modelled as its list of lines.  Dictionaries
are association lists with the protocol name as key. -/
def SaveMetricsFile (mean_average_precision : List (List Char × ℚ))
    (mean_precisions mean_recalls : List (List Char × List ℚ))
    (pr_ranks : List ℤ) : List (List Char) :=
  ((sortKeys (mean_average_precision.map (fun kv => kv.1))).map (fun k =>
    metricsBlock k ((assocGet k mean_average_precision).getD 0)
      ((assocGet k mean_precisions).getD [])
      ((assocGet k mean_recalls).getD []) pr_ranks)).flatten

/-- `_ParseSpaceSeparatedStringsInBrackets` (lines 350-372) combined with the
whitespace split and emptiness filter its consumers apply. -/
def parseBracketTokens (line : List Char) (pfxs : List (List Char)) (ind : ℕ) :
    Except String (List (List Char)) :=
  match pfxs.find? (fun q => startsWithList q line) with
  | none => Except.error "ValueError: cannot find valid prefixes"
  | some q =>
    let parts := splitOnChar '[' (line.drop q.length)
    if ind < parts.length then
      Except.ok ((splitOnChar ' ' ((splitOnChar ']' (parts.getD ind [])).headD [])).filter
        (fun t => !t.isEmpty))
    else Except.error "IndexError: list index out of range"

/-- `_ParsePrRanks` (lines 375-390). -/
def parsePrRanksLine (line : List Char) : Except String (List ℤ) := do
  let toks ← parseBracketTokens line [mPkLabel ++ ['[']] 0
  toks.mapM (fun t =>
    match parseIntChars t with
    | some i => Except.ok i
    | none => Except.error "ValueError: invalid literal for int")

/-- `_ParsePrScores` (lines 393-415). -/
def parsePrScoresLine (line : List Char) (num_pr_ranks : ℕ) :
    Except String (List ℚ) := do
  let toks ← parseBracketTokens line [mPkLabel ++ ['['], mRkLabel ++ ['[']] 1
  let pr_scores ← toks.mapM (fun t =>
    match parseDecimal t with
    | some q => Except.ok q
    | none => Except.error "ValueError: could not convert string to float")
  if pr_scores.length ≠ num_pr_ranks then
    Except.error "ValueError: wrong number of scores"
  else pure pr_scores

/-- The block loop of `ReadMetricsFile` (lines 448-477): stripped lines are
consumed four at a time; `protocols` records the protocol names already
seen, `pr_ranks` the established rank list (`[]` meaning not yet
established, as in the source), and the accumulators the three dictionaries
in insertion order. -/
def readBlocks (protocols : List (List Char)) (pr_ranks : List ℤ)
    (accMap : List (List Char × ℚ)) (accP accR : List (List Char × List ℚ)) :
    List (List Char) →
      Except String
        (List (List Char × ℚ) × List ℤ × List (List Char × List ℚ) ×
          List (List Char × List ℚ))
  | [] => Except.ok (accMap, pr_ranks, accP, accR)
  | l1 :: l2 :: l3 :: l4 :: rest =>
    if l1 ∈ protocols then
      Except.error "ValueError: protocol is found a second time"
    else
      let parts := splitOnChar '=' l2
      if 1 < parts.length then
        (parseDecimal (parts.getD 1 [])).elim
          (Except.error "ValueError: could not convert string to float")
          (fun v =>
            parsePrRanksLine l3 >>= fun parsed_pr_ranks =>
              if pr_ranks.isEmpty = false ∧ parsed_pr_ranks ≠ pr_ranks then
                Except.error "ValueError: inconsistent PR ranks"
              else
                let new_ranks := if pr_ranks.isEmpty then parsed_pr_ranks else pr_ranks
                parsePrScoresLine l3 new_ranks.length >>= fun p_scores =>
                  parsePrScoresLine l4 new_ranks.length >>= fun r_scores =>
                    readBlocks (l1 :: protocols) new_ranks
                      (accMap ++ [(l1, v / 100)])
                      (accP ++ [(l1, p_scores.map (fun s => s / 100))])
                      (accR ++ [(l1, r_scores.map (fun s => s / 100))]) rest)
      else Except.error "IndexError: list index out of range"
  | _ => Except.error "ValueError: number of lines must be a multiple of 4"

/-- `ReadMetricsFile` (lines 418-479), over already-stripped lines. -/
def ReadMetricsFile (lines : List (List Char)) :
    Except String
      (List (List Char × ℚ) × List ℤ × List (List Char × List ℚ) ×
        List (List Char × List ℚ)) :=
  if lines.length % 4 ≠ 0 then
    Except.error "ValueError: number of lines must be a multiple of 4"
  else readBlocks [] [] [] [] [] lines

theorem intChars_mem_toNat (i : ℤ) (c : Char) (hc : c ∈ intChars i) :
    (48 ≤ c.toNat ∧ c.toNat ≤ 57) ∨ c.toNat = 45 := by
  unfold intChars at hc
  rcases List.mem_append.mp hc with h1 | h1
  · by_cases h : i < 0
    · rw [if_pos h] at h1
      simp only [List.mem_singleton] at h1
      subst h1
      exact Or.inr rfl
    · rw [if_neg h] at h1
      cases h1
  · exact Or.inl (natChars_mem_toNat _ c h1)

theorem centiChars_mem_toNat (m : ℤ) (c : Char) (hc : c ∈ centiChars m) :
    (48 ≤ c.toNat ∧ c.toNat ≤ 57) ∨ c.toNat = 45 ∨ c.toNat = 46 := by
  unfold centiChars at hc
  rcases List.mem_append.mp hc with h1 | h1
  · rcases List.mem_append.mp h1 with h2 | h2
    · by_cases h : m < 0
      · rw [if_pos h] at h2
        simp only [List.mem_singleton] at h2
        subst h2
        exact Or.inr (Or.inl rfl)
      · rw [if_neg h] at h2
        cases h2
    · exact Or.inl (natChars_mem_toNat _ c h2)
  · rcases List.mem_cons.mp h1 with rfl | h2
    · exact Or.inr (Or.inr rfl)
    · exact Or.inl (centiFrac_mem_toNat _ (Nat.mod_lt _ (by omega)) c h2)

theorem numeric_char_ne {c : Char}
    (h : (48 ≤ c.toNat ∧ c.toNat ≤ 57) ∨ c.toNat = 45 ∨ c.toNat = 46) :
    c ≠ ' ' ∧ c ≠ '[' ∧ c ≠ ']' ∧ c ≠ '=' := by
  have hn : c.toNat ≠ 32 ∧ c.toNat ≠ 91 ∧ c.toNat ≠ 93 ∧ c.toNat ≠ 61 := by
    omega
  refine ⟨?_, ?_, ?_, ?_⟩ <;> intro he <;> subst he
  · exact hn.1 rfl
  · exact hn.2.1 rfl
  · exact hn.2.2.1 rfl
  · exact hn.2.2.2 rfl

theorem intChars_ne_nil (i : ℤ) : intChars i ≠ [] := by
  unfold intChars
  intro h
  rcases List.append_eq_nil.mp h with ⟨_, h2⟩
  exact natChars_ne_nil _ h2

theorem centiChars_ne_nil (m : ℤ) : centiChars m ≠ [] := by
  unfold centiChars
  intro h
  rcases List.append_eq_nil.mp h with ⟨_, h2⟩
  cases h2

theorem mem_joinSep {c : Char} :
    ∀ (toks : List (List Char)), c ∈ joinSep toks →
      c = ' ' ∨ ∃ t ∈ toks, c ∈ t := by
  intro toks
  induction toks with
  | nil => intro h; cases h
  | cons t rest ih =>
    cases rest with
    | nil =>
      intro h
      exact Or.inr ⟨t, by simp, h⟩
    | cons t2 r2 =>
      intro h
      rcases List.mem_append.mp h with h1 | h1
      · exact Or.inr ⟨t, by simp, h1⟩
      · rcases List.mem_cons.mp h1 with rfl | h2
        · exact Or.inl rfl
        · rcases ih h2 with h3 | ⟨t3, ht3, hc3⟩
          · exact Or.inl h3
          · exact Or.inr ⟨t3, by simp [ht3], hc3⟩

theorem splitOnChar_joinSep :
    ∀ (toks : List (List Char)),
      (∀ t ∈ toks, t ≠ [] ∧ ' ' ∉ t) →
      (splitOnChar ' ' (joinSep toks)).filter (fun t => !t.isEmpty) = toks := by
  intro toks
  induction toks with
  | nil => intro _; rfl
  | cons t rest ih =>
    intro hall
    have h := hall t (by simp)
    cases rest with
    | nil =>
      rw [show joinSep [t] = t from rfl, splitOnChar_no_occ ' ' t h.2]
      rw [List.filter_cons]
      simp [List.isEmpty_iff, h.1]
    | cons t2 r2 =>
      rw [show joinSep (t :: t2 :: r2) = t ++ ' ' :: joinSep (t2 :: r2) from rfl]
      rw [splitOnChar_append ' ' t _ h.2]
      rw [List.filter_cons, ih (fun x hx => hall x (by simp [hx]))]
      simp [List.isEmpty_iff, h.1]

theorem mapM_intChars (ranks : List ℤ) :
    (ranks.map intChars).mapM (fun t =>
        match parseIntChars t with
        | some i => Except.ok i
        | none => Except.error "ValueError: invalid literal for int")
      = (Except.ok ranks : Except String (List ℤ)) := by
  induction ranks with
  | nil => rfl
  | cons r rest ih =>
    rw [List.map_cons, List.mapM_cons]
    simp only [parseIntChars_intChars, ih]
    rfl

theorem mapM_centiChars (ms : List ℤ) :
    ((ms.map centiChars).mapM (fun t =>
        match parseDecimal t with
        | some q => Except.ok q
        | none => Except.error "ValueError: could not convert string to float"))
      = (Except.ok (ms.map (fun m : ℤ => (m : ℚ) / 100)) : Except String (List ℚ)) := by
  induction ms with
  | nil => rfl
  | cons m rest ih =>
    rw [List.map_cons, List.mapM_cons]
    simp only [parseDecimal_centiChars, ih]
    rfl

theorem parseBracketTokens_eq_of_find (line : List Char) (pfxs : List (List Char))
    (ind : ℕ) (q : List Char)
    (hfind : pfxs.find? (fun p => startsWithList p line) = some q) :
    parseBracketTokens line pfxs ind =
      (if ind < (splitOnChar '[' (line.drop q.length)).length then
        Except.ok ((splitOnChar ' '
            (((splitOnChar ']' ((splitOnChar '[' (line.drop q.length)).getD ind [])).headD []))).filter
          (fun t => !t.isEmpty))
      else Except.error "IndexError: list index out of range") := by
  unfold parseBracketTokens
  rw [hfind]

theorem except_ok_bind {α β : Type} (a : α) (f : α → Except String β) :
    (Except.ok a : Except String α) >>= f = f a := rfl

theorem startsWithList_append (p r : List Char) : startsWithList p (p ++ r) = true := by
  induction p with
  | nil => rfl
  | cons a ps ih => simp [startsWithList, ih]

theorem joinSep_no_bracket (toks : List (List Char))
    (h : ∀ t ∈ toks, ∀ c ∈ t, (48 ≤ c.toNat ∧ c.toNat ≤ 57) ∨ c.toNat = 45 ∨ c.toNat = 46) :
    '[' ∉ joinSep toks ∧ ']' ∉ joinSep toks := by
  constructor <;> intro hm <;> rcases mem_joinSep _ hm with h1 | ⟨t, ht, hc⟩
  · cases h1
  · have := h t ht _ hc
    have h91 : ('[').toNat = 91 := rfl
    omega
  · cases h1
  · have := h t ht _ hc
    have h93 : (']').toNat = 93 := rfl
    omega

theorem intChars_tokens_facts (ranks : List ℤ) :
    ∀ t ∈ ranks.map intChars, t ≠ [] ∧ ' ' ∉ t := by
  intro t ht
  rcases List.mem_map.mp ht with ⟨i, _, rfl⟩
  refine ⟨intChars_ne_nil i, ?_⟩
  intro hm
  have := intChars_mem_toNat i _ hm
  have h32 : (' ').toNat = 32 := rfl
  omega

theorem centiChars_tokens_facts (ms : List ℤ) :
    ∀ t ∈ ms.map centiChars, t ≠ [] ∧ ' ' ∉ t := by
  intro t ht
  rcases List.mem_map.mp ht with ⟨m, _, rfl⟩
  refine ⟨centiChars_ne_nil m, ?_⟩
  intro hm
  have := centiChars_mem_toNat m _ hm
  have h32 : (' ').toNat = 32 := rfl
  omega

theorem intChars_joinSep_no_bracket (ranks : List ℤ) :
    '[' ∉ joinSep (ranks.map intChars) ∧ ']' ∉ joinSep (ranks.map intChars) := by
  apply joinSep_no_bracket
  intro t ht c hc
  rcases List.mem_map.mp ht with ⟨i, _, rfl⟩
  rcases intChars_mem_toNat i c hc with h | h
  · exact Or.inl h
  · exact Or.inr (Or.inl h)

theorem centiChars_joinSep_no_bracket (ms : List ℤ) :
    '[' ∉ joinSep (ms.map centiChars) ∧ ']' ∉ joinSep (ms.map centiChars) := by
  apply joinSep_no_bracket
  intro t ht c hc
  rcases List.mem_map.mp ht with ⟨m, _, rfl⟩
  exact centiChars_mem_toNat m c hc

/-- Shape normalisation of an mP@k/mR@k line. -/
theorem metrics_line_shape (lbl : List Char) (ranks cents : List ℤ) :
    lbl ++ bracketTokens (ranks.map intChars) ++
        ' ' :: bracketTokens (cents.map centiChars)
      = (lbl ++ ['[']) ++
        (joinSep (ranks.map intChars) ++ ']' :: ' ' :: '[' ::
          (joinSep (cents.map centiChars) ++ [']'])) := by
  unfold bracketTokens
  simp

theorem metrics_line_tokens (lbl : List Char) (ranks cents : List ℤ)
    (pfxs : List (List Char))
    (hfind : pfxs.find? (fun p => startsWithList p
        (lbl ++ bracketTokens (ranks.map intChars) ++
         ' ' :: bracketTokens (cents.map centiChars))) = some (lbl ++ ['['])) :
    parseBracketTokens (lbl ++ bracketTokens (ranks.map intChars) ++
        ' ' :: bracketTokens (cents.map centiChars)) pfxs 0
      = Except.ok (ranks.map intChars) ∧
    parseBracketTokens (lbl ++ bracketTokens (ranks.map intChars) ++
        ' ' :: bracketTokens (cents.map centiChars)) pfxs 1
      = Except.ok (cents.map centiChars) := by
  have hR := intChars_joinSep_no_bracket ranks
  have hC := centiChars_joinSep_no_bracket cents
  have hdrop : ((lbl ++ bracketTokens (ranks.map intChars) ++
      ' ' :: bracketTokens (cents.map centiChars)).drop (lbl ++ ['[']).length)
      = joinSep (ranks.map intChars) ++ ']' :: ' ' :: '[' ::
          (joinSep (cents.map centiChars) ++ [']']) := by
    rw [metrics_line_shape, List.drop_left]
  have hsplit : splitOnChar '[' (joinSep (ranks.map intChars) ++ ']' :: ' ' :: '[' ::
        (joinSep (cents.map centiChars) ++ [']']))
      = [joinSep (ranks.map intChars) ++ [']', ' '],
         joinSep (cents.map centiChars) ++ [']']] := by
    have hsh : joinSep (ranks.map intChars) ++ ']' :: ' ' :: '[' ::
          (joinSep (cents.map centiChars) ++ [']'])
        = (joinSep (ranks.map intChars) ++ [']', ' ']) ++ '[' ::
          (joinSep (cents.map centiChars) ++ [']']) := by simp
    rw [hsh]
    apply splitOnChar_single
    · intro hm
      rcases List.mem_append.mp hm with h | h
      · exact hR.1 h
      · simp at h
    · intro hm
      rcases List.mem_append.mp hm with h | h
      · exact hC.1 h
      · simp at h
  constructor
  · rw [parseBracketTokens_eq_of_find _ pfxs 0 _ hfind, hdrop, hsplit]
    rw [if_pos (by norm_num)]
    have hg : ([joinSep (ranks.map intChars) ++ [']', ' '],
        joinSep (cents.map centiChars) ++ [']']].getD 0 [])
        = joinSep (ranks.map intChars) ++ [']', ' '] := rfl
    rw [hg]
    have h2 : splitOnChar ']' (joinSep (ranks.map intChars) ++ [']', ' '])
        = joinSep (ranks.map intChars) :: splitOnChar ']' [' '] := by
      have : joinSep (ranks.map intChars) ++ [']', ' ']
          = joinSep (ranks.map intChars) ++ ']' :: [' '] := rfl
      rw [this, splitOnChar_append ']' _ [' '] hR.2]
    rw [h2]
    have h3 : (joinSep (ranks.map intChars) :: splitOnChar ']' [' ']).headD []
        = joinSep (ranks.map intChars) := rfl
    rw [h3, splitOnChar_joinSep _ (intChars_tokens_facts ranks)]
  · rw [parseBracketTokens_eq_of_find _ pfxs 1 _ hfind, hdrop, hsplit]
    rw [if_pos (by norm_num)]
    have hg : ([joinSep (ranks.map intChars) ++ [']', ' '],
        joinSep (cents.map centiChars) ++ [']']].getD 1 [])
        = joinSep (cents.map centiChars) ++ [']'] := rfl
    rw [hg]
    have h2 : splitOnChar ']' (joinSep (cents.map centiChars) ++ [']'])
        = joinSep (cents.map centiChars) :: splitOnChar ']' [] := by
      have : joinSep (cents.map centiChars) ++ [']']
          = joinSep (cents.map centiChars) ++ ']' :: [] := rfl
      rw [this, splitOnChar_append ']' _ [] hC.2]
    rw [h2]
    have h3 : (joinSep (cents.map centiChars) :: splitOnChar ']' []).headD []
        = joinSep (cents.map centiChars) := rfl
    rw [h3, splitOnChar_joinSep _ (centiChars_tokens_facts cents)]

theorem find_mPk_on_mPk_line (ranks cents : List ℤ) (pfxs : List (List Char))
    (hhead : pfxs.headD [] = mPkLabel ++ ['[']) (hne : pfxs ≠ []) :
    pfxs.find? (fun p => startsWithList p
        (mPkLabel ++ bracketTokens (ranks.map intChars) ++
         ' ' :: bracketTokens (cents.map centiChars))) = some (mPkLabel ++ ['[']) := by
  match pfxs, hne with
  | q :: qs, _ =>
    have hq : q = mPkLabel ++ ['['] := hhead
    subst hq
    rw [List.find?_cons_of_pos]
    rw [metrics_line_shape]
    exact startsWithList_append _ _

theorem startsWith_mPk_on_mRk (T : List Char) :
    startsWithList (mPkLabel ++ ['[']) ((mRkLabel ++ ['[']) ++ T) = false := rfl

theorem find_on_mRk_line (ranks cents : List ℤ) :
    [mPkLabel ++ ['['], mRkLabel ++ ['[']].find? (fun p => startsWithList p
        (mRkLabel ++ bracketTokens (ranks.map intChars) ++
         ' ' :: bracketTokens (cents.map centiChars))) = some (mRkLabel ++ ['[']) := by
  have hline := metrics_line_shape mRkLabel ranks cents
  have h1 : startsWithList (mPkLabel ++ ['['])
      (mRkLabel ++ bracketTokens (ranks.map intChars) ++
       ' ' :: bracketTokens (cents.map centiChars)) = false := by
    rw [hline]
    exact startsWith_mPk_on_mRk _
  have h2 : startsWithList (mRkLabel ++ ['['])
      (mRkLabel ++ bracketTokens (ranks.map intChars) ++
       ' ' :: bracketTokens (cents.map centiChars)) = true := by
    rw [hline]
    exact startsWithList_append _ _
  rw [List.find?_cons_of_neg _ (by simp only [h1]; exact Bool.false_ne_true)]
  rw [List.find?_cons_of_pos _ (by exact h2)]

theorem parsePrRanksLine_block (ranks cents : List ℤ) :
    parsePrRanksLine (mPkLabel ++ bracketTokens (ranks.map intChars) ++
        ' ' :: bracketTokens (cents.map centiChars)) = Except.ok ranks := by
  unfold parsePrRanksLine
  have hfind := find_mPk_on_mPk_line ranks cents [mPkLabel ++ ['[']] rfl (by simp)
  rw [(metrics_line_tokens mPkLabel ranks cents _ hfind).1]
  rw [except_ok_bind]
  exact mapM_intChars ranks

theorem parsePrScoresLine_block_P (ranks cents : List ℤ) (n : ℕ)
    (hlen : cents.length = n) :
    parsePrScoresLine (mPkLabel ++ bracketTokens (ranks.map intChars) ++
        ' ' :: bracketTokens (cents.map centiChars)) n
      = Except.ok (cents.map (fun m : ℤ => (m : ℚ) / 100)) := by
  unfold parsePrScoresLine
  have hfind := find_mPk_on_mPk_line ranks cents [mPkLabel ++ ['['], mRkLabel ++ ['[']]
    rfl (by simp)
  rw [(metrics_line_tokens mPkLabel ranks cents _ hfind).2]
  rw [except_ok_bind, mapM_centiChars, except_ok_bind]
  rw [if_neg (by
    rw [List.length_map, hlen]
    simp)]
  rfl

theorem parsePrScoresLine_block_R (ranks cents : List ℤ) (n : ℕ)
    (hlen : cents.length = n) :
    parsePrScoresLine (mRkLabel ++ bracketTokens (ranks.map intChars) ++
        ' ' :: bracketTokens (cents.map centiChars)) n
      = Except.ok (cents.map (fun m : ℤ => (m : ℚ) / 100)) := by
  unfold parsePrScoresLine
  have hfind := find_on_mRk_line ranks cents
  rw [(metrics_line_tokens mRkLabel ranks cents _ hfind).2]
  rw [except_ok_bind, mapM_centiChars, except_ok_bind]
  rw [if_neg (by
    rw [List.length_map, hlen]
    simp)]
  rfl

theorem mapline_split (c : ℤ) :
    splitOnChar '=' (mAPLabel ++ centiChars c)
      = [[' ', ' ', 'm', 'A', 'P'], centiChars c] := by
  have h1 : mAPLabel ++ centiChars c
      = [' ', ' ', 'm', 'A', 'P'] ++ '=' :: centiChars c := rfl
  rw [h1]
  apply splitOnChar_single
  · decide
  · intro hm
    have := centiChars_mem_toNat c '=' hm
    have h61 : ('=').toNat = 61 := rfl
    omega

theorem readBlocks_write (pr_ranks : List ℤ) :
    ∀ (entries : List (List Char × ℚ × List ℚ × List ℚ))
      (protocols : List (List Char)) (r0 : List ℤ)
      (accMap : List (List Char × ℚ)) (accP accR : List (List Char × List ℚ)),
      (∀ e ∈ entries, e.2.2.1.length = pr_ranks.length ∧
        e.2.2.2.length = pr_ranks.length) →
      (entries.map (fun e => e.1)).Nodup →
      (∀ e ∈ entries, e.1 ∉ protocols) →
      (r0 = [] ∨ r0 = pr_ranks) →
      readBlocks protocols r0 accMap accP accR
          ((entries.map (fun e =>
            metricsBlock e.1 e.2.1 e.2.2.1 e.2.2.2 pr_ranks)).flatten)
        = Except.ok
            (accMap ++ entries.map (fun e =>
               (e.1, ((percentRound e.2.1 : ℚ) / 100) / 100)),
             (if entries.isEmpty then r0 else pr_ranks),
             accP ++ entries.map (fun e =>
               (e.1, e.2.2.1.map (fun v => ((percentRound v : ℚ) / 100) / 100))),
             accR ++ entries.map (fun e =>
               (e.1, e.2.2.2.map (fun v => ((percentRound v : ℚ) / 100) / 100)))) := by
  intro entries
  induction entries with
  | nil =>
    intro protocols r0 accMap accP accR _ _ _ _
    simp [readBlocks]
  | cons e es ih =>
    intro protocols r0 accMap accP accR hlens hnd hdisj hr0
    rcases e with ⟨k, mv, ps, rs⟩
    have hle := hlens ⟨k, mv, ps, rs⟩ (by simp)
    simp only at hle
    rw [List.map_cons, List.flatten_cons]
    rw [show metricsBlock k mv ps rs pr_ranks
        = [k,
           mAPLabel ++ centiChars (percentRound mv),
           mPkLabel ++ bracketTokens (pr_ranks.map intChars) ++
             ' ' :: bracketTokens ((ps.map percentRound).map centiChars),
           mRkLabel ++ bracketTokens (pr_ranks.map intChars) ++
             ' ' :: bracketTokens ((rs.map percentRound).map centiChars)] from rfl]
    rw [List.cons_append, List.cons_append, List.cons_append, List.cons_append,
      List.nil_append]
    rw [readBlocks]
    have hknotin : ¬k ∈ protocols := hdisj ⟨k, mv, ps, rs⟩ (by simp)
    rw [if_neg hknotin]
    simp only [mapline_split]
    rw [if_pos (by norm_num)]
    have hgetD : ([[' ', ' ', 'm', 'A', 'P'], centiChars (percentRound mv)].getD 1 [])
        = centiChars (percentRound mv) := rfl
    rw [hgetD, parseDecimal_centiChars]
    rw [Option.elim_some]
    rw [parsePrRanksLine_block pr_ranks (ps.map percentRound), except_ok_bind]
    have hcond : ¬(r0.isEmpty = false ∧ pr_ranks ≠ r0) := by
      rcases hr0 with rfl | rfl
      · simp
      · simp
    rw [if_neg hcond]
    have hnew : (if r0.isEmpty then pr_ranks else r0) = pr_ranks := by
      rcases hr0 with rfl | rfl
      · simp
      · exact ite_self _
    rw [hnew]
    rw [parsePrScoresLine_block_P pr_ranks (ps.map percentRound) pr_ranks.length
      (by rw [List.length_map, hle.1]), except_ok_bind]
    rw [parsePrScoresLine_block_R pr_ranks (rs.map percentRound) pr_ranks.length
      (by rw [List.length_map, hle.2]), except_ok_bind]
    rw [ih (k :: protocols) pr_ranks _ _ _
      (fun x hx => hlens x (by simp [hx]))
      (by
        rw [List.map_cons] at hnd
        exact (List.nodup_cons.mp hnd).2)
      (by
        intro x hx
        rw [List.map_cons, List.nodup_cons] at hnd
        simp only [List.mem_cons]
        push_neg
        constructor
        · intro he
          exact hnd.1 (he ▸ List.mem_map_of_mem (fun e => e.1) hx)
        · exact hdisj x (by simp [hx]))
      (Or.inr rfl)]
    simp [List.map_map, List.append_assoc, Function.comp, ite_self]

theorem insertKey_perm (k : List Char) : ∀ l, (insertKey k l).Perm (k :: l) := by
  intro l
  induction l with
  | nil => exact List.Perm.refl _
  | cons x rest ih =>
    unfold insertKey
    by_cases h : charListLe k x = true
    · rw [if_pos h]
    · rw [if_neg h]
      exact (ih.cons x).trans (List.Perm.swap k x rest)

theorem sortKeys_perm (l : List (List Char)) : (sortKeys l).Perm l := by
  induction l with
  | nil => exact List.Perm.refl _
  | cons x rest ih =>
    have h1 : sortKeys (x :: rest) = insertKey x (sortKeys rest) := rfl
    rw [h1]
    exact (insertKey_perm x (sortKeys rest)).trans (ih.cons x)

theorem assocGet_map_self {α : Type} (g : List Char → α) :
    ∀ (ks : List (List Char)) (k : List Char), k ∈ ks →
      assocGet k (ks.map (fun x => (x, g x))) = some (g k) := by
  intro ks
  induction ks with
  | nil => intro k hk; cases hk
  | cons x rest ih =>
    intro k hk
    rw [List.map_cons]
    rw [show assocGet k ((x, g x) :: rest.map (fun x => (x, g x)))
        = if x = k then some (g x) else assocGet k (rest.map (fun x => (x, g x))) from rfl]
    by_cases h : x = k
    · rw [if_pos h, h]
    · rw [if_neg h]
      apply ih
      rcases List.mem_cons.mp hk with rfl | hm
      · exact absurd rfl h
      · exact hm

theorem assocGet_some_of_mem_keys {α : Type} :
    ∀ (l : List (List Char × α)) (k : List Char), k ∈ l.map (fun kv => kv.1) →
      ∃ v, assocGet k l = some v := by
  intro l
  induction l with
  | nil => intro k hk; cases hk
  | cons kv rest ih =>
    intro k hk
    rcases kv with ⟨k2, v2⟩
    rw [show assocGet k ((k2, v2) :: rest)
        = if k2 = k then some v2 else assocGet k rest from rfl]
    by_cases h : k2 = k
    · exact ⟨v2, by rw [if_pos h]⟩
    · rw [if_neg h]
      apply ih
      rw [List.map_cons] at hk
      rcases List.mem_cons.mp hk with h2 | h2
      · exact absurd h2.symm h
      · exact h2

theorem mem_keys_of_assocGet_some {α : Type} :
    ∀ (l : List (List Char × α)) (k : List Char) (v : α),
      assocGet k l = some v → k ∈ l.map (fun kv => kv.1) := by
  intro l
  induction l with
  | nil => intro k v h; cases h
  | cons kv rest ih =>
    intro k v h
    rcases kv with ⟨k2, v2⟩
    rw [show assocGet k ((k2, v2) :: rest)
        = if k2 = k then some v2 else assocGet k rest from rfl] at h
    by_cases h2 : k2 = k
    · subst h2
      rw [List.map_cons]
      exact List.mem_cons_self _ _
    · rw [if_neg h2] at h
      rw [List.map_cons]
      exact List.mem_cons.mpr (Or.inr (ih k v h))

theorem flatten_blocks_length (ranks : List ℤ) :
    ∀ (blocks : List (List Char × ℚ × List ℚ × List ℚ)),
      ((blocks.map (fun e =>
        metricsBlock e.1 e.2.1 e.2.2.1 e.2.2.2 ranks)).flatten).length
        = 4 * blocks.length := by
  intro blocks
  induction blocks with
  | nil => rfl
  | cons b bs ih =>
    rw [List.map_cons, List.flatten_cons, List.length_append, ih]
    rw [show (metricsBlock b.1 b.2.1 b.2.2.1 b.2.2.2 ranks).length = 4 from rfl]
    rw [List.length_cons]
    omega

theorem percentRound_bound (v : ℚ) :
    |((percentRound v : ℚ) / 100) / 100 - v| ≤ 1 / 20000 := by
  unfold percentRound
  have h := abs_sub_round (v * 100 * 100)
  have he : ((round (v * 100 * 100) : ℤ) : ℚ) / 100 / 100 - v
      = (v * 100 * 100 - ((round (v * 100 * 100) : ℤ) : ℚ)) * (-(1 / 10000)) := by
    ring
  rw [he, abs_mul]
  have h2 : |(-(1 / 10000) : ℚ)| = 1 / 10000 := by norm_num
  rw [h2]
  calc |v * 100 * 100 - ((round (v * 100 * 100) : ℤ) : ℚ)| * (1 / 10000)
      ≤ (1 / 2) * (1 / 10000) :=
        mul_le_mul_of_nonneg_right h (by norm_num)
    _ = 1 / 20000 := by norm_num

theorem getD_map_lt {α β : Type} (f : α → β) (l : List α) (i : ℕ)
    (hi : i < l.length) (d : α) (d2 : β) :
    (l.map f).getD i d2 = f (l.getD i d) := by
  rw [List.getD_eq_getElem?_getD, List.getD_eq_getElem?_getD, List.getElem?_map,
    List.getElem?_eq_getElem hi]
  rfl

/-- C5: writing a metrics dictionary (at least one protocol, precision and
recall vectors of length `len(pr_ranks)`) with `SaveMetricsFile` and reading
the same lines back with `ReadMetricsFile` succeeds and returns the same
protocol keys (in sorted order), the same `pr_ranks` list, and mean AP /
precision / recall values within the 2-decimal rounding of `value * 100`,
i.e. within `0.005 / 100 = 1 / 20000` of each original value. -/
theorem saveMetrics_readMetrics_round_trip
    (mAP : List (List Char × ℚ)) (mP mR : List (List Char × List ℚ))
    (ranks : List ℤ)
    (hnd : (mAP.map (fun kv => kv.1)).Nodup)
    (hne : mAP ≠ [])
    (hP : ∀ k ∈ mAP.map (fun kv => kv.1),
      ∃ v, assocGet k mP = some v ∧ v.length = ranks.length)
    (hR : ∀ k ∈ mAP.map (fun kv => kv.1),
      ∃ v, assocGet k mR = some v ∧ v.length = ranks.length) :
    ∃ rmap rranks rP rR,
      ReadMetricsFile (SaveMetricsFile mAP mP mR ranks)
          = Except.ok (rmap, rranks, rP, rR) ∧
      rranks = ranks ∧
      rmap.map (fun kv => kv.1) = sortKeys (mAP.map (fun kv => kv.1)) ∧
      (∀ k, k ∈ rmap.map (fun kv => kv.1) ↔ k ∈ mAP.map (fun kv => kv.1)) ∧
      (∀ k v, assocGet k mAP = some v →
        ∃ v2, assocGet k rmap = some v2 ∧ |v2 - v| ≤ 1 / 20000) ∧
      (∀ k, k ∈ mAP.map (fun kv => kv.1) → ∀ v, assocGet k mP = some v →
        ∃ v2, assocGet k rP = some v2 ∧ v2.length = v.length ∧
          ∀ i, i < v.length → |v2.getD i 0 - v.getD i 0| ≤ 1 / 20000) ∧
      (∀ k, k ∈ mAP.map (fun kv => kv.1) → ∀ v, assocGet k mR = some v →
        ∃ v2, assocGet k rR = some v2 ∧ v2.length = v.length ∧
          ∀ i, i < v.length → |v2.getD i 0 - v.getD i 0| ≤ 1 / 20000) := by
  have hperm : (sortKeys (mAP.map (fun kv => kv.1))).Perm (mAP.map (fun kv => kv.1)) :=
    sortKeys_perm _
  have hmem : ∀ k, k ∈ sortKeys (mAP.map (fun kv => kv.1)) ↔
      k ∈ mAP.map (fun kv => kv.1) := fun k => hperm.mem_iff
  have hnds : (sortKeys (mAP.map (fun kv => kv.1))).Nodup := hperm.nodup_iff.mpr hnd
  have hsave : SaveMetricsFile mAP mP mR ranks
      = (((sortKeys (mAP.map (fun kv => kv.1))).map (fun k =>
          (k, (assocGet k mAP).getD 0, (assocGet k mP).getD [],
            (assocGet k mR).getD []))).map
          (fun e => metricsBlock e.1 e.2.1 e.2.2.1 e.2.2.2 ranks)).flatten := by
    rw [List.map_map]
    rfl
  have hlens : ∀ e ∈ (sortKeys (mAP.map (fun kv => kv.1))).map (fun k =>
      (k, (assocGet k mAP).getD 0, (assocGet k mP).getD [], (assocGet k mR).getD [])),
      e.2.2.1.length = ranks.length ∧ e.2.2.2.length = ranks.length := by
    intro e he
    rcases List.mem_map.mp he with ⟨k, hk, rfl⟩
    have hk2 := (hmem k).mp hk
    rcases hP k hk2 with ⟨v, hv, hvl⟩
    rcases hR k hk2 with ⟨w, hw, hwl⟩
    constructor
    · simp only [hv, Option.getD_some]
      exact hvl
    · simp only [hw, Option.getD_some]
      exact hwl
  have hnodup2 : (((sortKeys (mAP.map (fun kv => kv.1))).map (fun k =>
      (k, (assocGet k mAP).getD 0, (assocGet k mP).getD [],
        (assocGet k mR).getD []))).map (fun e => e.1)).Nodup := by
    rw [List.map_map]
    have hcomp : ((fun (e : List Char × ℚ × List ℚ × List ℚ) => e.1) ∘ (fun k =>
        (k, (assocGet k mAP).getD 0, (assocGet k mP).getD [],
          (assocGet k mR).getD []))) = fun k => k := rfl
    rw [hcomp, List.map_id']
    exact hnds
  have hdisj : ∀ e ∈ (sortKeys (mAP.map (fun kv => kv.1))).map (fun k =>
      (k, (assocGet k mAP).getD 0, (assocGet k mP).getD [], (assocGet k mR).getD [])),
      e.1 ∉ ([] : List (List Char)) := by
    intro e _ h
    cases h
  have hrb := readBlocks_write ranks
    ((sortKeys (mAP.map (fun kv => kv.1))).map (fun k =>
      (k, (assocGet k mAP).getD 0, (assocGet k mP).getD [], (assocGet k mR).getD [])))
    [] [] [] [] [] hlens hnodup2 hdisj (Or.inl rfl)
  have hskne : sortKeys (mAP.map (fun kv => kv.1)) ≠ [] := by
    intro h
    apply hne
    have hlen := hperm.length_eq
    rw [h] at hlen
    have : mAP.map (fun kv => kv.1) = [] :=
      List.length_eq_zero.mp hlen.symm
    exact List.map_eq_nil.mp this
  have hentne : ((sortKeys (mAP.map (fun kv => kv.1))).map (fun k =>
      (k, (assocGet k mAP).getD 0, (assocGet k mP).getD [],
        (assocGet k mR).getD []))).isEmpty = false := by
    rw [Bool.eq_false_iff]
    intro h
    rw [List.isEmpty_iff] at h
    exact hskne (List.map_eq_nil.mp h)
  rw [hentne] at hrb
  simp only [Bool.false_eq_true, if_false, List.nil_append] at hrb
  have hfinal : ReadMetricsFile (SaveMetricsFile mAP mP mR ranks)
      = Except.ok
          (((sortKeys (mAP.map (fun kv => kv.1))).map (fun k =>
              (k, (assocGet k mAP).getD 0, (assocGet k mP).getD [],
                (assocGet k mR).getD []))).map (fun e =>
              (e.1, ((percentRound e.2.1 : ℚ) / 100) / 100)),
           ranks,
           ((sortKeys (mAP.map (fun kv => kv.1))).map (fun k =>
              (k, (assocGet k mAP).getD 0, (assocGet k mP).getD [],
                (assocGet k mR).getD []))).map (fun e =>
              (e.1, e.2.2.1.map (fun v => ((percentRound v : ℚ) / 100) / 100))),
           ((sortKeys (mAP.map (fun kv => kv.1))).map (fun k =>
              (k, (assocGet k mAP).getD 0, (assocGet k mP).getD [],
                (assocGet k mR).getD []))).map (fun e =>
              (e.1, e.2.2.2.map (fun v => ((percentRound v : ℚ) / 100) / 100)))) := by
    rw [hsave]
    unfold ReadMetricsFile
    rw [if_neg (by
      rw [flatten_blocks_length]
      omega)]
    exact hrb
  refine ⟨_, _, _, _, hfinal, rfl, ?_, ?_, ?_, ?_, ?_⟩
  · rw [List.map_map, List.map_map]
    have hcomp : (((fun (kv : List Char × ℚ) => kv.1) ∘ fun e =>
        (e.1, ((percentRound e.2.1 : ℚ) / 100) / 100)) ∘ (fun k =>
        (k, (assocGet k mAP).getD 0, (assocGet k mP).getD [],
          (assocGet k mR).getD []))) = fun k => k := rfl
    rw [hcomp, List.map_id']
  · intro k
    rw [List.map_map, List.map_map]
    have hcomp : (((fun (kv : List Char × ℚ) => kv.1) ∘ fun e =>
        (e.1, ((percentRound e.2.1 : ℚ) / 100) / 100)) ∘ (fun k =>
        (k, (assocGet k mAP).getD 0, (assocGet k mP).getD [],
          (assocGet k mR).getD []))) = fun k => k := rfl
    rw [hcomp, List.map_id']
    exact hmem k
  · intro k v hkv
    have hkk : k ∈ mAP.map (fun kv => kv.1) := mem_keys_of_assocGet_some mAP k v hkv
    have hks : k ∈ sortKeys (mAP.map (fun kv => kv.1)) := (hmem k).mpr hkk
    rw [List.map_map]
    refine ⟨((percentRound ((assocGet k mAP).getD 0) : ℚ) / 100) / 100, ?_, ?_⟩
    · exact assocGet_map_self
        (fun k => ((percentRound ((assocGet k mAP).getD 0) : ℚ) / 100) / 100) _ k hks
    · rw [hkv]
      simp only [Option.getD_some]
      exact percentRound_bound v
  · intro k hk v hkv
    have hks : k ∈ sortKeys (mAP.map (fun kv => kv.1)) := (hmem k).mpr hk
    rw [List.map_map]
    refine ⟨((assocGet k mP).getD []).map
      (fun x => ((percentRound x : ℚ) / 100) / 100), ?_, ?_, ?_⟩
    · exact assocGet_map_self
        (fun k => ((assocGet k mP).getD []).map
          (fun x => ((percentRound x : ℚ) / 100) / 100)) _ k hks
    · rw [hkv]
      simp
    · intro i hi
      rw [hkv]
      simp only [Option.getD_some]
      rw [getD_map_lt _ v i hi 0 0]
      exact percentRound_bound _
  · intro k hk v hkv
    have hks : k ∈ sortKeys (mAP.map (fun kv => kv.1)) := (hmem k).mpr hk
    rw [List.map_map]
    refine ⟨((assocGet k mR).getD []).map
      (fun x => ((percentRound x : ℚ) / 100) / 100), ?_, ?_, ?_⟩
    · exact assocGet_map_self
        (fun k => ((assocGet k mR).getD []).map
          (fun x => ((percentRound x : ℚ) / 100) / 100)) _ k hks
    · rw [hkv]
      simp
    · intro i hi
      rw [hkv]
      simp only [Option.getD_some]
      rw [getD_map_lt _ v i hi 0 0]
      exact percentRound_bound _

/-- Concrete instance of the save/read round trip: one protocol key, mean AP
`1/2`, precision vector `[3/4]`, recall vector `[1]`, `pr_ranks = [1]`. -/
theorem saveMetrics_readMetrics_round_trip_witness :
    ∃ rmap rranks rP rR,
      ReadMetricsFile (SaveMetricsFile [(['e'], (1:ℚ)/2)] [(['e'], [(3:ℚ)/4])]
          [(['e'], [(1:ℚ)])] [1])
          = Except.ok (rmap, rranks, rP, rR) ∧
      rranks = [1] ∧
      rmap.map (fun kv => kv.1) = sortKeys ([(['e'], (1:ℚ)/2)].map (fun kv => kv.1)) ∧
      (∀ k, k ∈ rmap.map (fun kv => kv.1) ↔
        k ∈ [(['e'], (1:ℚ)/2)].map (fun kv => kv.1)) ∧
      (∀ k v, assocGet k [(['e'], (1:ℚ)/2)] = some v →
        ∃ v2, assocGet k rmap = some v2 ∧ |v2 - v| ≤ 1 / 20000) ∧
      (∀ k, k ∈ [(['e'], (1:ℚ)/2)].map (fun kv => kv.1) →
        ∀ v, assocGet k [(['e'], [(3:ℚ)/4])] = some v →
        ∃ v2, assocGet k rP = some v2 ∧ v2.length = v.length ∧
          ∀ i, i < v.length → |v2.getD i 0 - v.getD i 0| ≤ 1 / 20000) ∧
      (∀ k, k ∈ [(['e'], (1:ℚ)/2)].map (fun kv => kv.1) →
        ∀ v, assocGet k [(['e'], [(1:ℚ)])] = some v →
        ∃ v2, assocGet k rR = some v2 ∧ v2.length = v.length ∧
          ∀ i, i < v.length → |v2.getD i 0 - v.getD i 0| ≤ 1 / 20000) :=
  saveMetrics_readMetrics_round_trip [(['e'], (1:ℚ)/2)] [(['e'], [(3:ℚ)/4])]
    [(['e'], [(1:ℚ)])] [1]
    (by decide)
    (fun h => List.noConfusion h)
    (by
      intro k hk
      simp only [List.map_cons, List.map_nil, List.mem_cons, List.not_mem_nil,
        or_false] at hk
      subst hk
      exact ⟨[(3:ℚ)/4], rfl, rfl⟩)
    (by
      intro k hk
      simp only [List.map_cons, List.map_nil, List.mem_cons, List.not_mem_nil,
        or_false] at hk
      subst hk
      exact ⟨[(1:ℚ)], rfl, rfl⟩)
